import Mathlib

/-!
# Verification of the miter editing core (src/miter.c)

A shallow embedding of the editing core of the `miter` terminal text editor.
Rows are embedded as `List Char` (the `chars` byte sequence of an
`editor_row`); the editor state carries the row store, the file cursor, the
secondary-cursor array and the in-memory undo stack, mirroring the fields of
the C `editor` global that the verified operations touch.

Conventions used throughout:
* C `int` positions are embedded as `Nat`: every position handled by the
  modelled operations is non-negative in the C program.
* The embedding covers editor configurations with no active selection: the
  `if (editor.selection.active)` guards at the head of the edit operations
  are no-ops in such configurations, so they are not reproduced.
* Wall-clock time (the 500 ms undo-grouping window) is abstracted by an
  explicit `fresh : Bool` argument: `fresh = true` embeds a call where more
  than `UNDO_GROUP_TIMEOUT_MS` elapsed since the previous edit.
-/

namespace Miter

/-! ## Render mapper (§4.2): editor_row_cursor_to_render / render_to_cursor -/

/-- `MITER_TAB_STOP` from miter.c. -/
def MITER_TAB_STOP : Nat := 8

/-- One step of the render-column accumulation: a tab jumps to the next
multiple of 8 (`rx += (MITER_TAB_STOP - 1) - (rx % MITER_TAB_STOP); rx++`),
any other char advances by one. -/
def renderStep (rx : Nat) (c : Char) : Nat :=
  if c = '\t' then rx + MITER_TAB_STOP - rx % MITER_TAB_STOP else rx + 1

/-- Recursive core of `editor_row_cursor_to_render`: walk the first `cx`
chars accumulating the render column starting from `rx`. -/
def cursorToRenderFrom : List Char → Nat → Nat → Nat
  | _, 0, rx => rx
  | [], _ + 1, rx => rx
  | c :: rest, cx + 1, rx => cursorToRenderFrom rest cx (renderStep rx c)

/-- `editor_row_cursor_to_render(row, cx)` (miter.c:1571): render column of
cursor column `cx` in the row `chars`. -/
def editor_row_cursor_to_render (chars : List Char) (cx : Nat) : Nat :=
  cursorToRenderFrom chars cx 0

/-- Recursive core of `editor_row_render_to_cursor`: the C loop walks cursor
columns accumulating `cur_rx` and returns the first `cx` whose successor
render column exceeds the target `rx`; falling off the row returns
`row->line_size`, embedded here as `cx` plus the remaining length. -/
def renderToCursorFrom : List Char → Nat → Nat → Nat → Nat
  | [], _, cx, _ => cx
  | c :: rest, rx, cx, curRx =>
    let curRx' := renderStep curRx c
    if rx < curRx' then cx else renderToCursorFrom rest rx (cx + 1) curRx'

/-- `editor_row_render_to_cursor(row, rx)` (miter.c:1584). -/
def editor_row_render_to_cursor (chars : List Char) (rx : Nat) : Nat :=
  renderToCursorFrom chars rx 0 0

/-! ## File I/O (§6): editor_rows_to_string / editor_open -/

/-- `editor_rows_to_string` (miter.c:4636): concatenate all rows, writing one
`'\n'` after each row. -/
def editor_rows_to_string (rows : List (List Char)) : List Char :=
  rows.foldr (fun r acc => r ++ '\n' :: acc) []

/-- The chunks produced by the `getline` loop of `editor_open` (miter.c:4668):
each chunk extends up to and including a `'\n'`; a final chunk at end of file
without a trailing newline is the remainder. -/
def getlineChunks : List Char → List (List Char)
  | [] => []
  | c :: rest =>
    if c = '\n' then ['\n'] :: getlineChunks rest
    else
      match getlineChunks rest with
      | [] => [[c]]
      | chunk :: chunks => (c :: chunk) :: chunks

/-- The trailing trim of `editor_open` (miter.c:4670):
`while (line_length > 0 && (line[line_length-1]=='\n' || =='\r')) line_length--`. -/
def trimTrailingCRLF (l : List Char) : List Char :=
  (l.reverse.dropWhile (fun c => decide (c = '\n' ∨ c = '\r'))).reverse

/-- The row store `editor_open` (miter.c:4656) builds from a file's contents:
one row per `getline` chunk, trailing CR/LF trimmed. -/
def editor_open_rows (contents : List Char) : List (List Char) :=
  (getlineChunks contents).map trimTrailingCRLF

/-! ## Search index (§4.9): simple_search -/

/-- The `strstr` scan of one row (miter.c:7982-7996): every offset at which
the query occurs is recorded, the scan resuming one character after each hit
(`search_pos = match_pos + 1`). -/
def searchOccsFrom (query : List Char) : List Char → Nat → List Nat
  | [], _ => []
  | c :: rest, i =>
    if query.isPrefixOf (c :: rest) then i :: searchOccsFrom query rest (i + 1)
    else searchOccsFrom query rest (i + 1)

/-- `simple_search(query)` (miter.c:7961) as the list of recorded
`(line_number, match_offset, match_length)` triples over the rows' render
strings: an empty (or absent) query clears the results and records nothing. -/
def simple_search (renderRows : List (List Char)) (query : List Char) :
    List (Nat × Nat × Nat) :=
  if query = [] then []
  else (renderRows.enum).flatMap fun p =>
    (searchOccsFrom query p.2 0).map fun off => (p.1, off, query.length)

/-! ## Quit counter (§7): the Ctrl-Q branch of editor_process_keypress -/

/-- `MITER_QUIT_TIMES` (miter.c:67), documented in the source as the
"Number of Ctrl-Q presses required to quit with unsaved changes". -/
def MITER_QUIT_TIMES : Nat := 3

/-- The state the quit logic reads: the `static int quit_times` counter of
`editor_process_keypress`, the buffer dirty flag, and whether `exit(0)` was
reached. -/
structure QuitState where
  quitTimes : Nat
  dirty : Bool
  exited : Bool
  deriving Repr, DecidableEq

/-- A key event as the quit logic distinguishes them: the quit key, or any
other key that is handled by the dispatch switch to completion. -/
inductive QKey where
  | quit
  | other
  deriving Repr, DecidableEq

/-- The Ctrl-Q case of `editor_process_keypress` (miter.c:7198-7210) together
with the `quit_times = MITER_QUIT_TIMES` reset that every key falling through
the dispatch switch executes (miter.c:7518).  A quit press on a dirty buffer
with a positive counter shows the warning, decrements the counter and returns
early; otherwise the editor exits. -/
def processQuitKey (s : QuitState) (k : QKey) : QuitState :=
  if s.exited then s
  else match k with
    | .quit =>
      if s.dirty ∧ 0 < s.quitTimes then { s with quitTimes := s.quitTimes - 1 }
      else { s with exited := true }
    | .other => { s with quitTimes := MITER_QUIT_TIMES }

/-- `n` consecutive quit-key presses from a fresh keypress loop
(`quit_times` at its initial value `MITER_QUIT_TIMES`). -/
def pressQuitN (n : Nat) (dirty : Bool) : QuitState :=
  (fun s => processQuitKey s .quit)^[n]
    { quitTimes := MITER_QUIT_TIMES, dirty := dirty, exited := false }

/-! ## Editor state

The fields of the C `editor` global that the verified operations read or
write.  The buffer `dirty` counter, selection record and highlight state are
not represented: no modelled operation's row/cursor/undo behaviour depends on
them (the embedding covers configurations with no active selection, where the
`if (editor.selection.active)` guards are no-ops).  A secondary
`cursor_position` also carries `has_selection`/anchor fields in C; they are
inert in every modelled code path and are omitted. -/

/-- A secondary cursor (`cursor_position`), restricted to the fields the
modelled operations use. -/
structure CursorPos where
  line : Nat
  column : Nat
  deriving Repr, DecidableEq

/-- Undo operation kinds (`enum undo_op_type`) produced by the modelled
operations.  `UNDO_CHAR_DELETE_FWD`, `UNDO_SELECTION_DELETE` and `UNDO_PASTE`
are logged only by operations outside the modelled fragment. -/
inductive UndoOp where
  | charInsert
  | charDelete
  | rowInsert
  | rowDelete
  | rowSplit
  deriving Repr, DecidableEq

/-- An `undo_entry` (miter.c:270-282).  `chData` is the first character of
`char_data` (`none` embeds the NULL pointer), `rowContent` embeds
`row_content`. -/
structure UndoEntry where
  group : Nat
  op : UndoOp
  cursorRow : Nat
  cursorCol : Nat
  rowIdx : Nat
  charPos : Nat
  chData : Option Char
  rowContent : Option (List Char)
  deriving Repr, DecidableEq

/-- The editor state: row store, file cursor, secondary cursors, and the
in-memory undo stack with its bookkeeping (`undo_stack_capacity`,
`undo_group_id`, `undo_position`).  `ucapacity = 0` embeds the
never-allocated (`NULL`) stack. -/
structure EState where
  rows : List (List Char)
  cy : Nat
  cx : Nat
  cursors : List CursorPos
  allowOverlap : Bool
  ustack : List UndoEntry
  ucapacity : Nat
  groupId : Nat
  upos : Nat
  deriving Repr, DecidableEq

/-! ## Row store operations (§4.1) -/

/-- `editor_row_insert_char` (miter.c:3464) on the chars sequence: a position
past the row end is clamped to the row end. -/
def editor_row_insert_char (r : List Char) (pos : Nat) (c : Char) : List Char :=
  let a := if r.length < pos then r.length else pos
  r.take a ++ c :: r.drop a

/-- `editor_row_delete_char` (miter.c:3489): out-of-range positions are
no-ops. -/
def editor_row_delete_char (r : List Char) (pos : Nat) : List Char :=
  if pos < r.length then r.take pos ++ r.drop (pos + 1) else r

/-- `editor_insert_row` (miter.c:1676) restricted to the chars sequences; an
out-of-range index is a no-op. -/
def editor_insert_row (rows : List (List Char)) (pos : Nat) (content : List Char) :
    List (List Char) :=
  if pos ≤ rows.length then rows.take pos ++ content :: rows.drop pos else rows

/-- `editor_delete_row` (miter.c:1715); an out-of-range index is a no-op. -/
def editor_delete_row (rows : List (List Char)) (pos : Nat) : List (List Char) :=
  if pos < rows.length then rows.take pos ++ rows.drop (pos + 1) else rows

/-! ## Undo log (§4.7): undo_log and its helpers -/

/-- `UNDO_MAX_ENTRIES` (miter.c:284). -/
def UNDO_MAX_ENTRIES : Nat := 10000

/-- `undo_start_new_group` (miter.c:7621). -/
def undo_start_new_group (s : EState) : EState :=
  { s with groupId := s.groupId + 1, upos := s.groupId + 1 }

/-- `undo_maybe_start_group` (miter.c:7627).  `fresh` embeds
`elapsed_ms > UNDO_GROUP_TIMEOUT_MS` since the previous edit. -/
def undo_maybe_start_group (s : EState) (forceNew fresh : Bool) : EState :=
  if forceNew then undo_start_new_group s
  else if fresh ∨ s.groupId = 0 then undo_start_new_group s
  else s

/-- `undo_clear_redo` (miter.c:7714): scanning the stack top-down, every
index holding an entry with group id above the redo position lowers the
retained count to that index, so the stack is truncated at the lowest such
index; afterwards `undo_group_id` is pulled down to the redo position. -/
def undo_clear_redo (s : EState) : EState :=
  if s.groupId ≤ s.upos then s
  else if s.ustack = [] then s
  else { s with
    ustack := s.ustack.take (s.ustack.findIdx fun e => s.upos < e.group),
    groupId := s.upos }

/-- `undo_log` (miter.c:7650): redo truncation, grouping (row insert/delete,
row split, selection-delete and paste force a new group), stack housekeeping
(capacity 256 on first use; doubling while the capacity is below
`UNDO_MAX_ENTRIES`; otherwise the oldest `capacity / 4` entries are removed),
and the new entry, which captures the current chars of `rows[row_idx]` for
row-insert/row-delete entries.  The `editor.undo_logging` re-entrancy flag is
not represented: the modelled `editor_undo`/`editor_redo` do not log. -/
def undo_log (s : EState) (fresh : Bool) (ty : UndoOp)
    (cursorRow cursorCol rowIdx charPos : Nat) (chData : Option Char) : EState :=
  let forceNew := ty = .rowInsert ∨ ty = .rowDelete ∨ ty = .rowSplit
  let s := undo_clear_redo s
  let s := undo_maybe_start_group s forceNew fresh
  let s := if s.ucapacity = 0 then { s with ucapacity := 256 } else s
  let s :=
    if s.ucapacity ≤ s.ustack.length then
      if UNDO_MAX_ENTRIES ≤ s.ucapacity then
        { s with ustack := s.ustack.drop (s.ucapacity / 4) }
      else
        { s with ucapacity := s.ucapacity * 2 }
    else s
  let rowContent :=
    if ty = .rowDelete ∨ ty = .rowInsert then s.rows[rowIdx]? else none
  let entry : UndoEntry :=
    { group := s.groupId, op := ty, cursorRow := cursorRow, cursorCol := cursorCol,
      rowIdx := rowIdx, charPos := charPos, chData := chData, rowContent := rowContent }
  { s with ustack := s.ustack ++ [entry], upos := s.groupId }

/-! ## Editing operations (§4.6), single-cursor paths

`editor_insert_newline` and `editor_delete_char` are embedded on their
single-cursor paths: the multi-cursor and active-selection dispatches at
their heads leave these paths untouched, and every theorem about them is
stated for states with `cursors = []`. -/

/-- C `isspace` (default locale). -/
def isCSpace (c : Char) : Bool :=
  c = ' ' || c = '\t' || c = '\n' || c = '\x0b' || c = '\x0c' || c = '\r'

/-- The backward whitespace skip of the extra-indent check
(miter.c:3577-3580): `while (check_pos > 0 && isspace(chars[check_pos]))
check_pos--`.  Reading `chars[line_size]` yields the NUL terminator, embedded
by the `'\x00'` default. -/
def braceCheckPos (row : List Char) : Nat → Nat
  | 0 => 0
  | q + 1 => if isCSpace (row.getD (q + 1) '\x00') then braceCheckPos row q else q + 1

/-- The extra-indent trigger of `editor_insert_newline` (miter.c:3576-3582):
the character before the cursor, skipping whitespace backwards, is `'{'`. -/
def extraIndentTriggered (row : List Char) (cx : Nat) : Bool :=
  row.getD (braceCheckPos row (cx - 1)) '\x00' == '{'

/-- The leading-whitespace indent captured by `editor_insert_newline`
(miter.c:3566-3573), capped at `sizeof(indent_buf) - 5 = 251` characters. -/
def capturedIndent (row : List Char) : List Char :=
  (row.takeWhile fun c => c = ' ' || c = '\t').take 251

/-- Pure row/cursor effect of `editor_insert_newline` (miter.c:3558-3622),
without the undo logging: indent capture, row insert (cursor at column 0) or
row split, cursor move to the next row, auto-indentation prepended to the new
row (the per-position insert loop at miter.c:3616-3619 prepends
`indent_buf[0..total_indent)`), cursor column set to the indent length. -/
def insert_newline_rows (rows : List (List Char)) (cy cx : Nat) :
    List (List Char) × Nat × Nat :=
  let row := rows.getD cy []
  let indent := if cy < rows.length then capturedIndent row else []
  let extra : Nat :=
    if cy < rows.length ∧ extraIndentTriggered row cx then 4 else 0
  let rows :=
    if cx = 0 then editor_insert_row rows cy []
    else (editor_insert_row rows (cy + 1) (row.drop cx)).set cy (row.take cx)
  let total := indent ++ List.replicate extra ' '
  if total.length ≠ 0 then
    (rows.set (cy + 1) (total ++ rows.getD (cy + 1) []), cy + 1, total.length)
  else (rows, cy + 1, 0)

/-- `editor_insert_newline` (miter.c:3546), single-cursor path: log
`UNDO_ROW_INSERT` when the cursor is at column 0, `UNDO_ROW_SPLIT` otherwise,
then apply the row/cursor effect. -/
def editor_insert_newline (s : EState) (fresh : Bool) : EState :=
  let s :=
    if s.cx = 0 then undo_log s fresh .rowInsert s.cy s.cx s.cy 0 none
    else undo_log s fresh .rowSplit s.cy s.cx s.cy s.cx none
  let r := insert_newline_rows s.rows s.cy s.cx
  { s with rows := r.1, cy := r.2.1, cx := r.2.2 }

/-- `editor_line_starts_with_closing_brace` (miter.c:3446). -/
def editor_line_starts_with_closing_brace (row : List Char) : Bool :=
  match row.dropWhile isCSpace with
  | [] => false
  | c :: _ => c = '}'

/-- `unindent_line_apply` (miter.c:3402): remove up to 4 leading spaces from
the line; returns the updated rows and the number of spaces removed (the C
function returns its negation). -/
def unindent_line_apply (rows : List (List Char)) (line : Nat) :
    List (List Char) × Nat :=
  if line < rows.length then
    let row := rows.getD line []
    let n := min (row.takeWhile fun c => c = ' ').length 4
    if n = 0 then (rows, 0) else (rows.set line (row.drop n), n)
  else (rows, 0)

/-- `editor_auto_unindent_closing_brace` (miter.c:3456). -/
def editor_auto_unindent_closing_brace (rows : List (List Char)) (line : Nat) :
    List (List Char) × Nat :=
  if line < rows.length ∧ editor_line_starts_with_closing_brace (rows.getD line [])
  then unindent_line_apply rows line
  else (rows, 0)

/-! ## Multi-cursor operations (§4.5) -/

/-- `cursor_cmp_forward` (miter.c:2275) as a total boolean order:
by line, then by column. -/
def cursorLE (a b : CursorPos) : Bool :=
  decide (a.line < b.line ∨ (a.line = b.line ∧ a.column ≤ b.column))

/-- `multicursor_collect_all` (miter.c:2291) with `reverse = 1`: the primary
cursor plus all secondaries, sorted end-of-file-first (`cursor_cmp_reverse`).
`qsort` is embedded as a merge sort; the two agree whenever the positions
are pairwise distinct. -/
def multicursor_collect_all_rev (s : EState) : List CursorPos :=
  (({ line := s.cy, column := s.cx } : CursorPos) :: s.cursors).mergeSort
    fun a b => cursorLE b a

/-- `editor_insert_char_at` (miter.c:2626): insert a character at
`(line, col)` without moving the primary cursor, creating the empty phantom
row first when `line == row_count`. -/
def editor_insert_char_at (s : EState) (line col : Nat) (c : Char) : EState :=
  if s.rows.length < line then s
  else
    let s :=
      if line = s.rows.length then
        { s with rows := editor_insert_row s.rows s.rows.length [] }
      else s
    let newRow := editor_row_insert_char (s.rows.getD line []) col c
    { s with rows := s.rows.set line newRow }

/-- The Kilo rebasing of one original position (miter.c:2717-2731): new
column = original column + number of original cursors on the same line with
column ≤ this cursor's original column (the cursor itself included). -/
def rebase_column (orig : List CursorPos) (o : CursorPos) : CursorPos :=
  { o with column := o.column +
      orig.countP fun p => decide (p.line = o.line ∧ p.column ≤ o.column) }

/-- First pass of `multicursor_remove_duplicates` (miter.c:2325-2341): drop
secondaries that coincide with the primary, keeping the first one when
`allow_primary_overlap` is set. -/
def dropPrimaryOverlap (prim : CursorPos) (allow : Bool) :
    List CursorPos → Bool → List CursorPos
  | [], _ => []
  | c :: rest, kept =>
    if c = prim then
      if allow ∧ kept = false then c :: dropPrimaryOverlap prim allow rest true
      else dropPrimaryOverlap prim allow rest kept
    else c :: dropPrimaryOverlap prim allow rest kept

/-- Second pass of `multicursor_remove_duplicates` (miter.c:2350-2363):
collapse runs of positions equal to the last kept one. -/
def collapseAdjacent : CursorPos → List CursorPos → List CursorPos
  | _, [] => []
  | prev, c :: rest =>
    if c = prev then collapseAdjacent prev rest else c :: collapseAdjacent c rest

/-- `multicursor_remove_duplicates` (miter.c:2321): drop primary-coincident
secondaries, then (when more than one remains) sort by position and collapse
adjacent duplicates. -/
def multicursor_remove_duplicates (s : EState) : EState :=
  if s.cursors = [] then s
  else
    let kept := dropPrimaryOverlap ⟨s.cy, s.cx⟩ s.allowOverlap s.cursors false
    if kept.length ≤ 1 then { s with cursors := kept }
    else
      match kept.mergeSort cursorLE with
      | [] => { s with cursors := [] }
      | c :: rest => { s with cursors := c :: collapseAdjacent c rest }

/-- The unique-line closing-brace pass of `multicursor_insert_char`
(miter.c:2690-2715) on the row store: each affected line is auto-unindented
once (lines repeated in the snapshot are skipped).  The column adjustments
this C loop makes to the working array are all overwritten by the rebasing
loop that follows it, so only the row effect is observable. -/
def multicursorBracePass (rows : List (List Char)) :
    List Nat → List Nat → List (List Char)
  | [], _ => rows
  | l :: rest, seen =>
    if l ∈ seen then multicursorBracePass rows rest seen
    else multicursorBracePass (editor_auto_unindent_closing_brace rows l).1 rest (l :: seen)

/-- One step of the insertion loop of `multicursor_insert_char`
(miter.c:2672-2688): log the `UNDO_CHAR_INSERT` entry, then insert at the
snapshot position.  The first `undo_log` call of the loop sees the
grouping-timeout state `fresh`; the later calls happen within the timeout. -/
def mcInsertStep (c : Char) (fresh : Bool) (st : EState) (p : Nat × CursorPos) :
    EState :=
  editor_insert_char_at
    (undo_log st (fresh && p.1 == 0) .charInsert p.2.line p.2.column p.2.line
      p.2.column (some c))
    p.2.line p.2.column c

/-- The cursor-restoration scan of `multicursor_insert_char`
(miter.c:2733-2755): a cursor is moved to the rebased column of the first
table entry whose original position matches it, and left alone when no entry
matches. -/
def mcRestore (pairs : List (CursorPos × CursorPos)) (cur : CursorPos) :
    CursorPos :=
  match pairs.find? fun p => p.1.line == cur.line && p.1.column == cur.column with
  | some p => { cur with column := p.2.column }
  | none => cur

/-- `multicursor_insert_char` (miter.c:2649): snapshot all cursors in
reverse document order, force one new undo group, insert the character at
each snapshot position (logging one `UNDO_CHAR_INSERT` entry per cursor),
run the closing-brace pass, rebase every position from the originals, restore
the primary and each secondary by first-match against its original position,
and deduplicate. -/
def multicursor_insert_char (s : EState) (c : Char) (fresh : Bool) : EState :=
  if s.cursors = [] then s
  else
    let orig := multicursor_collect_all_rev s
    let s := undo_start_new_group s
    let s := (orig.enum).foldl (mcInsertStep c fresh) s
    let s :=
      if c = '}' then
        { s with rows := multicursorBracePass s.rows (orig.map (·.line)) [] }
      else s
    let rebased := orig.map (rebase_column orig)
    let pairs := orig.zip rebased
    let s := { s with cx := (mcRestore pairs ⟨s.cy, s.cx⟩).column }
    let s := { s with cursors := s.cursors.map (mcRestore pairs) }
    multicursor_remove_duplicates s

/-- `editor_insert_char` (miter.c:3506): multi-cursor dispatch, phantom-row
creation, `UNDO_CHAR_INSERT` logging, the insert, and the closing-brace
auto-unindent with its cursor shift. -/
def editor_insert_char (s : EState) (c : Char) (fresh : Bool) : EState :=
  if s.cursors ≠ [] then multicursor_insert_char s c fresh
  else
    let s :=
      if s.cy = s.rows.length then
        { s with rows := editor_insert_row s.rows s.rows.length [] }
      else s
    let s := undo_log s fresh .charInsert s.cy s.cx s.cy s.cx (some c)
    let s := { s with
      rows := s.rows.set s.cy (editor_row_insert_char (s.rows.getD s.cy []) s.cx c),
      cx := s.cx + 1 }
    if c = '}' then
      let r := editor_auto_unindent_closing_brace s.rows s.cy
      { s with rows := r.1, cx := if r.2 ≤ s.cx then s.cx - r.2 else 0 }
    else s

/-- `editor_delete_char` (miter.c:3763), single-cursor path (backspace): a
no-op on the phantom line and at `(0,0)`; an in-line delete logs
`UNDO_CHAR_DELETE` and removes the char left of the cursor; at column 0 the
row is appended to the previous one (logging `UNDO_ROW_DELETE` with the
current row's content) and deleted. -/
def editor_delete_char (s : EState) (fresh : Bool) : EState :=
  if s.cy = s.rows.length then s
  else if s.cx = 0 ∧ s.cy = 0 then s
  else if 0 < s.cx then
    let row := s.rows.getD s.cy []
    let s := undo_log s fresh .charDelete s.cy s.cx s.cy (s.cx - 1)
      (some (row.getD (s.cx - 1) '\x00'))
    { s with rows := s.rows.set s.cy (editor_row_delete_char row (s.cx - 1)),
             cx := s.cx - 1 }
  else
    let s := undo_log s fresh .rowDelete s.cy s.cx s.cy 0 none
    let prev := s.rows.getD (s.cy - 1) []
    { s with
      rows := editor_delete_row (s.rows.set (s.cy - 1) (prev ++ s.rows.getD s.cy [])) s.cy,
      cy := s.cy - 1, cx := prev.length }

/-- `multicursor_add` (miter.c:2124): returns `(1, state-with-new-cursor)`
on success, `(0, unchanged-state)` when a cursor already stands at the
position.  Array growth is embedded as always succeeding. -/
def multicursor_add (s : EState) (line column : Nat) : Nat × EState :=
  if s.cy = line ∧ s.cx = column then (0, s)
  else if s.cursors.any (fun cur => cur.line == line && cur.column == column) then (0, s)
  else (1, { s with cursors := s.cursors ++ [⟨line, column⟩] })

/-! ## Cursor movement and forward delete -/

/-- The `ARROW_RIGHT` case of `editor_move_cursor` (miter.c:6033-6039)
together with the end-of-function row-length clamp (miter.c:6152-6156). -/
def editor_move_cursor_right (s : EState) : EState :=
  let s :=
    if s.cy < s.rows.length then
      let len := (s.rows.getD s.cy []).length
      if s.cx < len then { s with cx := s.cx + 1 }
      else if s.cx = len then { s with cy := s.cy + 1, cx := 0 }
      else s
    else s
  let rowlen := if s.cy < s.rows.length then (s.rows.getD s.cy []).length else 0
  if rowlen < s.cx then { s with cx := rowlen } else s

/-- The `DEL_KEY` case of `editor_process_keypress` (miter.c:7327-7332):
forward delete is a right-arrow cursor move followed by backspace. -/
def process_del_key (s : EState) (fresh : Bool) : EState :=
  editor_delete_char (editor_move_cursor_right s) fresh

/-! ## Undo and redo (§4.7): editor_undo / editor_redo -/

/-- The per-entry inverse switch of `editor_undo` (miter.c:7752-7830),
restricted to the modelled operation kinds, as a transformation of the row
store (these branches touch nothing else). -/
def undo_apply_entry (rows : List (List Char)) (e : UndoEntry) :
    List (List Char) :=
  match e.op with
  | .charInsert =>
    if e.rowIdx < rows.length ∧ e.charPos < (rows.getD e.rowIdx []).length then
      rows.set e.rowIdx (editor_row_delete_char (rows.getD e.rowIdx []) e.charPos)
    else rows
  | .charDelete =>
    match e.chData with
    | some c =>
      if e.rowIdx < rows.length then
        let row := rows.getD e.rowIdx []
        rows.set e.rowIdx (row.take e.charPos ++ c :: row.drop e.charPos)
      else rows
    | none => rows
  | .rowInsert =>
    if e.rowIdx < rows.length then editor_delete_row rows e.rowIdx else rows
  | .rowDelete =>
    match e.rowContent with
    | some content => editor_insert_row rows e.rowIdx content
    | none => rows
  | .rowSplit =>
    if e.rowIdx + 1 < rows.length then
      editor_delete_row
        (rows.set e.rowIdx (rows.getD e.rowIdx [] ++ rows.getD (e.rowIdx + 1) []))
        (e.rowIdx + 1)
    else rows

/-- `editor_undo` (miter.c:7731): nothing to undo when the redo position is
0 or the stack was never allocated; otherwise apply the inverses of the
current group's entries in reverse stack order, restore the cursor recorded
by the group's last-logged entry (clamped to the buffer), and decrement the
redo position. -/
def editor_undo (s : EState) : EState :=
  if s.upos = 0 ∨ s.ustack = [] then s
  else
    let entries := (s.ustack.filter fun e => e.group = s.upos).reverse
    let rows := entries.foldl undo_apply_entry s.rows
    let s' := { s with rows := rows, upos := s.upos - 1 }
    match entries.head? with
    | none => s'
    | some e =>
      let cy := if rows.length ≤ e.cursorRow then rows.length - 1 else e.cursorRow
      let cx :=
        if cy < rows.length ∧ (rows.getD cy []).length < e.cursorCol then
          (rows.getD cy []).length
        else e.cursorCol
      { s' with cy := cy, cx := cx }

/-- The per-entry replay switch of `editor_redo` (miter.c:7863-7945),
restricted to the modelled kinds: the updated row store plus the
`last_col` override a replayed `UNDO_CHAR_INSERT` makes. -/
def redo_apply_entry (rows : List (List Char)) (e : UndoEntry) :
    List (List Char) × Option Nat :=
  match e.op with
  | .charInsert =>
    match e.chData with
    | some c =>
      if e.rowIdx < rows.length then
        let row := rows.getD e.rowIdx []
        (rows.set e.rowIdx (row.take e.charPos ++ c :: row.drop e.charPos),
          some (e.charPos + 1))
      else (rows, none)
    | none => (rows, none)
  | .charDelete =>
    if e.rowIdx < rows.length ∧ e.charPos < (rows.getD e.rowIdx []).length then
      (rows.set e.rowIdx (editor_row_delete_char (rows.getD e.rowIdx []) e.charPos),
        none)
    else (rows, none)
  | .rowInsert =>
    match e.rowContent with
    | some content => (editor_insert_row rows e.rowIdx content, none)
    | none => (rows, none)
  | .rowDelete => (editor_delete_row rows e.rowIdx, none)
  | .rowSplit =>
    if e.rowIdx < rows.length then
      ((insert_newline_rows rows e.rowIdx e.charPos).1, none)
    else (rows, none)

/-- `editor_redo` (miter.c:7849): nothing to redo when the redo position has
reached the top group or the stack was never allocated; otherwise advance the
position and replay that group's entries in forward stack order, finishing on
the cursor recorded by the last replayed entry (clamped to the buffer). -/
def editor_redo (s : EState) : EState :=
  if s.groupId ≤ s.upos ∨ s.ustack = [] then s
  else
    let entries := s.ustack.filter fun e => e.group = s.upos + 1
    let acc := entries.foldl
      (fun (acc : List (List Char) × Option (Nat × Nat)) e =>
        let r := redo_apply_entry acc.1 e
        (r.1, match r.2 with
          | some col => some (e.cursorRow, col)
          | none => some (e.cursorRow, e.cursorCol)))
      (s.rows, none)
    let s' := { s with rows := acc.1, upos := s.upos + 1 }
    match acc.2 with
    | none => s'
    | some rc =>
      let cy := if acc.1.length ≤ rc.1 then acc.1.length - 1 else rc.1
      let cx :=
        if cy < acc.1.length ∧ (acc.1.getD cy []).length < rc.2 then
          (acc.1.getD cy []).length
        else rc.2
      { s' with cy := cy, cx := cx }

/-! ## Edit sequences for the undo round-trip law -/

/-- A primary-cursor edit: character insert, backspace, or newline.  Each is
applied as its own undo group (the edits are separated by more than the
500 ms grouping window, embedded by `fresh = true`; row splits and row
inserts force a new group regardless). -/
inductive Edit where
  | insert (c : Char)
  | backspace
  | newline
  deriving Repr, DecidableEq

/-- Apply one edit at the primary cursor. -/
def applyEdit (s : EState) : Edit → EState
  | .insert c => editor_insert_char s c true
  | .backspace => editor_delete_char s true
  | .newline => editor_insert_newline s true

/-- Apply a sequence of edits. -/
def applyEdits (s : EState) (es : List Edit) : EState := es.foldl applyEdit s

/-- The completely-journalled edits: a character insert other than `'}'`
(no auto-unindent) strictly inside the buffer, an in-line backspace, or a
mid-line newline that picks up no auto-indentation.  These are the edits
whose undo entries determine their full inverse. -/
def editOK (s : EState) : Edit → Bool
  | .insert c =>
    s.cy < s.rows.length && s.cx ≤ (s.rows.getD s.cy []).length && !(c == '}')
  | .backspace =>
    s.cy < s.rows.length && (0 < s.cx && s.cx ≤ (s.rows.getD s.cy []).length)
  | .newline =>
    s.cy < s.rows.length && (0 < s.cx && s.cx ≤ (s.rows.getD s.cy []).length)
      && capturedIndent (s.rows.getD s.cy []) == []
      && !(extraIndentTriggered (s.rows.getD s.cy []) s.cx)

/-- `editOK` holds along a whole edit sequence. -/
def editsOK (s : EState) : List Edit → Bool
  | [] => true
  | e :: es => editOK s e && editsOK (applyEdit s e) es

/-! ## Verification auxiliaries

Definitions used only to state and prove the theorems below; they are not
translations of miter.c code. -/

/-- The full cursor set: the primary cursor followed by the secondaries. -/
def allCursors (s : EState) : List CursorPos :=
  ({ line := s.cy, column := s.cx } : CursorPos) :: s.cursors

/-- Number of cursors in `l` on `o`'s line with column ≤ `o`'s column (the
count the Kilo rebasing formula adds to the original column). -/
def countColLE (l : List CursorPos) (o : CursorPos) : Nat :=
  l.countP fun p => decide (p.line = o.line ∧ p.column ≤ o.column)

/-- The columns of the cursors of `l` on a given line, largest first. -/
def colsOnLine (l : List CursorPos) (line : Nat) : List Nat :=
  (((l.filter fun p => p.line == line).map (·.column)).mergeSort fun a b =>
    decide (b ≤ a))

/-- Insert `c` once at each listed column of a row (columns processed in the
given order). -/
def insertAtCols (r : List Char) (cols : List Nat) (c : Char) : List Char :=
  cols.foldl (fun row col => editor_row_insert_char row col c) r

/-- Well-formedness of the undo bookkeeping in quiescent states: no redo is
pending (`undo_position == undo_group_id`), every stack entry's group id is
at most the current group id, and there are no secondary cursors. -/
def undoWF (s : EState) : Bool :=
  s.upos == s.groupId
    && (s.ustack.all fun e => decide (e.group ≤ s.groupId))
    && s.cursors.isEmpty

/-- Simulation up to redo junk: `s'` agrees with `s` on rows and redo
position, and its stack extends `s`'s only by entries of groups above the
redo position (entries that `editor_undo` never selects). -/
def UndoSim (s' s : EState) : Prop :=
  s'.rows = s.rows ∧ s'.upos = s.upos ∧
    ∃ junk, s'.ustack = s.ustack ++ junk ∧ ∀ e ∈ junk, s.upos < e.group

/-- A single-cursor editor state with the given rows and cursor and an empty
undo history, as after startup. -/
def mkState (rows : List (List Char)) (cy cx : Nat) : EState :=
  { rows := rows, cy := cy, cx := cx, cursors := [], allowOverlap := false,
    ustack := [], ucapacity := 0, groupId := 0, upos := 0 }

/-- The entry `undo_log` appends when called on state `s` after a new group
has been opened (so the entry's group id is `s.groupId + 1`). -/
def mkLoggedEntry (s : EState) (ty : UndoOp) (cr cc ri cp : Nat)
    (cd : Option Char) : UndoEntry :=
  { group := s.groupId + 1, op := ty, cursorRow := cr, cursorCol := cc,
    rowIdx := ri, charPos := cp, chData := cd,
    rowContent := if ty = .rowDelete ∨ ty = .rowInsert then s.rows[ri]? else none }

/-- The capacity discipline `undo_log` maintains: an untouched log has
capacity 0 (the `NULL` stack) and no entries; an initialized one has a
capacity of the form `256 * 2^k ≤ 16384` holding at least as many slots as
there are entries. -/
def capWF (s : EState) : Prop :=
  (s.ucapacity = 0 ∧ s.ustack = []) ∨
    ∃ k ≤ 6, s.ucapacity = 256 * 2 ^ k ∧ s.ustack.length ≤ s.ucapacity

/-- The row-store effect of one pass of the per-cursor insertion loop of
`multicursor_insert_char`: insert `c` once at each listed position, in the
given order. -/
def rowsInsertFold (rows : List (List Char)) (ps : List CursorPos) (c : Char) :
    List (List Char) :=
  ps.foldl
    (fun rs p => rs.set p.line (editor_row_insert_char (rs.getD p.line []) p.column c))
    rows

/-- The worked multi-cursor example of the spec (§4.5): rows `"foo"`, `"bar"`,
`"baz"`, primary cursor at `(0,0)`, secondaries at `(1,0)` and `(2,0)`, empty
undo history. -/
def exMulti : EState :=
  { mkState [['f', 'o', 'o'], ['b', 'a', 'r'], ['b', 'a', 'z']] 0 0 with
    cursors := [⟨1, 0⟩, ⟨2, 0⟩] }

/-- The state `multicursor_insert_char` produces from `exMulti` on inserting
`'x'`: one insertion per row, all cursors one column right, one fresh undo
group of three `UNDO_CHAR_INSERT` entries in end-of-file-first order. -/
def exMultiAfter : EState :=
  { rows := [['x', 'f', 'o', 'o'], ['x', 'b', 'a', 'r'], ['x', 'b', 'a', 'z']],
    cy := 0, cx := 1, cursors := [⟨1, 1⟩, ⟨2, 1⟩], allowOverlap := false,
    ustack :=
      [{ group := 2, op := .charInsert, cursorRow := 2, cursorCol := 0,
         rowIdx := 2, charPos := 0, chData := some 'x', rowContent := none },
       { group := 2, op := .charInsert, cursorRow := 1, cursorCol := 0,
         rowIdx := 1, charPos := 0, chData := some 'x', rowContent := none },
       { group := 2, op := .charInsert, cursorRow := 0, cursorCol := 0,
         rowIdx := 0, charPos := 0, chData := some 'x', rowContent := none }],
    ucapacity := 256, groupId := 2, upos := 2 }

/-- A tab jumps the render column to the next multiple of the tab stop. -/
theorem renderStep_tab (rx : Nat) :
    renderStep rx '\t' = MITER_TAB_STOP * (rx / MITER_TAB_STOP + 1) := by
  simp [renderStep, MITER_TAB_STOP]
  omega

/-- Each render step advances the column by at least one. -/
theorem lt_renderStep (rx : Nat) (c : Char) : rx < renderStep rx c := by
  unfold renderStep
  split
  · have : rx % MITER_TAB_STOP < MITER_TAB_STOP := Nat.mod_lt _ (by decide)
    omega
  · omega

/-- The accumulated render column never decreases below its start. -/
theorem le_cursorToRenderFrom (chars : List Char) (cx rx : Nat) :
    rx ≤ cursorToRenderFrom chars cx rx := by
  induction chars generalizing cx rx with
  | nil => cases cx <;> simp [cursorToRenderFrom]
  | cons c rest ih =>
    cases cx with
    | zero => simp [cursorToRenderFrom]
    | succ k =>
      calc rx ≤ renderStep rx c := (lt_renderStep rx c).le
        _ ≤ _ := ih k (renderStep rx c)

/-- Monotonicity of the cursor→render walk in the cursor column. -/
theorem cursorToRenderFrom_mono (chars : List Char) {cx₁ cx₂ : Nat} (rx : Nat)
    (h : cx₁ ≤ cx₂) :
    cursorToRenderFrom chars cx₁ rx ≤ cursorToRenderFrom chars cx₂ rx := by
  induction chars generalizing cx₁ cx₂ rx with
  | nil => cases cx₁ <;> cases cx₂ <;> simp [cursorToRenderFrom]
  | cons c rest ih =>
    cases cx₁ with
    | zero =>
      cases cx₂ with
      | zero => exact le_refl _
      | succ k₂ =>
        simpa [cursorToRenderFrom] using
          le_trans (lt_renderStep rx c).le (le_cursorToRenderFrom rest k₂ _)
    | succ k₁ =>
      cases cx₂ with
      | zero => omega
      | succ k₂ =>
        simpa [cursorToRenderFrom] using ih _ (Nat.succ_le_succ_iff.mp h)

/-- The render→cursor walk with shifted base cursor column. -/
theorem renderToCursorFrom_shift (chars : List Char) (rx cx cur : Nat) :
    renderToCursorFrom chars rx cx cur = cx + renderToCursorFrom chars rx 0 cur := by
  induction chars generalizing cx cur with
  | nil => simp [renderToCursorFrom]
  | cons c rest ih =>
    simp only [renderToCursorFrom]
    split
    · simp
    · rw [ih (cx + 1), ih (0 + 1)]
      omega

/-- `render→cursor` never exceeds the row length. -/
theorem renderToCursorFrom_le_length (chars : List Char) (rx cur : Nat) :
    renderToCursorFrom chars rx 0 cur ≤ chars.length := by
  induction chars generalizing cur with
  | nil => simp [renderToCursorFrom]
  | cons c rest ih =>
    simp only [renderToCursorFrom]
    split
    · simp
    · rw [renderToCursorFrom_shift]
      have := ih (renderStep cur c)
      simp only [List.length_cons]
      omega

/-- Soundness half of the inverse property: the cursor column returned by the
render→cursor walk has render column at most the target. -/
theorem cursorToRender_renderToCursor_le (chars : List Char) (rx cur : Nat)
    (h : cur ≤ rx) :
    cursorToRenderFrom chars (renderToCursorFrom chars rx 0 cur) cur ≤ rx := by
  induction chars generalizing cur with
  | nil => simpa [renderToCursorFrom, cursorToRenderFrom] using h
  | cons c rest ih =>
    by_cases hlt : rx < renderStep cur c
    · have h0 : renderToCursorFrom (c :: rest) rx 0 cur = 0 := by
        simp [renderToCursorFrom, hlt]
      rw [h0]
      simpa [cursorToRenderFrom] using h
    · have h1 : renderToCursorFrom (c :: rest) rx 0 cur
          = renderToCursorFrom rest rx 0 (renderStep cur c) + 1 := by
        simp only [renderToCursorFrom, if_neg hlt]
        rw [renderToCursorFrom_shift]
        omega
      rw [h1]
      simp only [cursorToRenderFrom]
      exact ih (renderStep cur c) (by omega)

/-- Maximality half of the inverse property: any in-bounds cursor column whose
render column is at most the target is at most the returned cursor column. -/
theorem le_renderToCursor_of_le (chars : List Char) (cx rx cur : Nat)
    (hcx : cx ≤ chars.length) (h : cursorToRenderFrom chars cx cur ≤ rx) :
    cx ≤ renderToCursorFrom chars rx 0 cur := by
  induction chars generalizing cx cur with
  | nil => simpa [renderToCursorFrom] using hcx
  | cons c rest ih =>
    cases cx with
    | zero => exact Nat.zero_le _
    | succ k =>
      have hk : k ≤ rest.length := by simpa using hcx
      have hstep : cursorToRenderFrom rest k (renderStep cur c) ≤ rx := by
        simpa [cursorToRenderFrom] using h
      have hcur : renderStep cur c ≤ rx :=
        le_trans (le_cursorToRenderFrom rest k _) hstep
      simp only [renderToCursorFrom]
      rw [if_neg (by omega), renderToCursorFrom_shift]
      have := ih k (renderStep cur c) hk hstep
      omega

/-- **C4.** `editor_row_cursor_to_render` walks the raw chars `0..cx`, a tab
jumping the accumulated column to the next multiple of 8, and
`editor_row_render_to_cursor` is its inverse: it returns the largest
in-bounds `cx` whose render column is ≤ the target, and in particular every
render column lying inside a tab's expanded span maps back to that tab's
cursor column. -/
theorem render_mapper_inverse (chars : List Char) (rx : Nat) :
    (∀ r, renderStep r '\t' = MITER_TAB_STOP * (r / MITER_TAB_STOP + 1)) ∧
    editor_row_cursor_to_render chars (editor_row_render_to_cursor chars rx) ≤ rx ∧
    editor_row_render_to_cursor chars rx ≤ chars.length ∧
    (∀ cx, cx ≤ chars.length → editor_row_cursor_to_render chars cx ≤ rx →
      cx ≤ editor_row_render_to_cursor chars rx) ∧
    (∀ cx, cx < chars.length → chars.get? cx = some '\t' →
      editor_row_cursor_to_render chars cx ≤ rx →
      rx < editor_row_cursor_to_render chars (cx + 1) →
      editor_row_render_to_cursor chars rx = cx) := by
  refine ⟨renderStep_tab, cursorToRender_renderToCursor_le chars rx 0 (Nat.zero_le _),
    renderToCursorFrom_le_length chars rx 0,
    fun cx hcx h => le_renderToCursor_of_le chars cx rx 0 hcx h, ?_⟩
  intro cx hcx _ hle hgt
  have h₁ : cx ≤ editor_row_render_to_cursor chars rx :=
    le_renderToCursor_of_le chars cx rx 0 (le_of_lt hcx) hle
  by_contra hne
  have h₂ : cx + 1 ≤ editor_row_render_to_cursor chars rx := by omega
  have h₃ : editor_row_cursor_to_render chars (cx + 1) ≤
      editor_row_cursor_to_render chars (editor_row_render_to_cursor chars rx) :=
    cursorToRenderFrom_mono chars 0 h₂
  have h₄ := cursorToRender_renderToCursor_le chars rx 0 (Nat.zero_le _)
  unfold editor_row_cursor_to_render editor_row_render_to_cursor at *
  omega

/-- Witness for C4 at the spec's literal scenario: row `"a\tb"`, target render
column 7; cursor column 2 renders at column 8 and render column 7 (inside the
tab span) maps back to cursor column 1. -/
theorem render_mapper_inverse_witness :
    editor_row_cursor_to_render ['a', '\t', 'b'] 2 = 8 ∧
    editor_row_render_to_cursor ['a', '\t', 'b'] 7 = 1 ∧
    (1 : Nat) ≤ 3 ∧ editor_row_cursor_to_render ['a', '\t', 'b'] 1 ≤ 7 ∧
    1 ≤ editor_row_render_to_cursor ['a', '\t', 'b'] 7 := by
  refine ⟨by decide, ?_, by decide, by decide, ?_⟩
  · exact (render_mapper_inverse ['a', '\t', 'b'] 7).2.2.2.2 1 (by decide) (by decide)
      (by decide) (by decide)
  · exact (render_mapper_inverse ['a', '\t', 'b'] 7).2.2.2.1 1 (by decide) (by decide)

/-! ## List helpers -/

theorem set_len_append {α : Type _} (l₁ : List α) (x : α) (l₂ : List α) (v : α) :
    (l₁ ++ x :: l₂).set l₁.length v = l₁ ++ v :: l₂ := by
  induction l₁ with
  | nil => rfl
  | cons a l ih => simp [List.set, ih]

theorem getD_len_append {α : Type _} (l₁ : List α) (x : α) (l₂ : List α) (d : α) :
    (l₁ ++ x :: l₂).getD l₁.length d = x := by
  induction l₁ with
  | nil => rfl
  | cons a l ih => simpa using ih

theorem take_len_succ_append {α : Type _} (l₁ : List α) (x : α) (l₂ : List α) :
    (l₁ ++ x :: l₂).take (l₁.length + 1) = l₁ ++ [x] := by
  induction l₁ with
  | nil => rfl
  | cons a l ih => simpa using ih

theorem drop_len_succ_append {α : Type _} (l₁ : List α) (x : α) (l₂ : List α) :
    (l₁ ++ x :: l₂).drop (l₁.length + 1) = l₂ := by
  induction l₁ with
  | nil => rfl
  | cons a l ih => simpa using ih

theorem exists_decomp_of_lt_length {α : Type _} {l : List α} {i : Nat}
    (h : i < l.length) (d : α) :
    ∃ l₁ l₂, l = l₁ ++ l.getD i d :: l₂ ∧ l₁.length = i := by
  induction l generalizing i with
  | nil => simp at h
  | cons a rest ih =>
    cases i with
    | zero => exact ⟨[], rest, rfl, rfl⟩
    | succ j =>
      obtain ⟨l₁, l₂, hdec, hlen⟩ := ih (by simpa using h)
      exact ⟨a :: l₁, l₂, by simpa using hdec, by simpa using hlen⟩

/-- Deleting the just-inserted character restores the row. -/
theorem row_delete_insert (r : List Char) (pos : Nat) (c : Char)
    (h : pos ≤ r.length) :
    editor_row_delete_char (editor_row_insert_char r pos c) pos = r := by
  unfold editor_row_insert_char editor_row_delete_char
  have ha : ¬ r.length < pos := by omega
  simp only [ha, if_false]
  have hlen : (r.take pos ++ c :: r.drop pos).length = r.length + 1 := by
    simp [List.length_take]
    omega
  rw [if_pos (by omega)]
  have htake : (r.take pos ++ c :: r.drop pos).take pos = r.take pos := by
    rw [List.take_append_eq_append_take, List.length_take]
    have : pos - min pos r.length = 0 := by omega
    simp [this, List.take_take]
  have hdrop : (r.take pos ++ c :: r.drop pos).drop (pos + 1) = r.drop pos := by
    have : pos + 1 = (r.take pos).length + 1 := by simp [List.length_take]; omega
    rw [this, drop_len_succ_append]
  rw [htake, hdrop, List.take_append_drop]

/-- Re-inserting the just-deleted character restores the row. -/
theorem row_insert_delete (r : List Char) (pos : Nat) (d : Char)
    (h : pos < r.length) :
    (editor_row_delete_char r pos).take pos
      ++ r.getD pos d :: (editor_row_delete_char r pos).drop pos = r := by
  obtain ⟨l₁, l₂, hdec, hlen⟩ := exists_decomp_of_lt_length h d
  unfold editor_row_delete_char
  rw [if_pos h]
  conv_lhs => rw [hdec]
  conv_rhs => rw [hdec]
  have htake : (l₁ ++ r.getD pos d :: l₂).take pos = l₁ := by
    rw [← hlen, List.take_left]
  have hdrop : (l₁ ++ r.getD pos d :: l₂).drop (pos + 1) = l₂ := by
    rw [← hlen, drop_len_succ_append]
  rw [htake, hdrop]
  have htake₂ : (l₁ ++ l₂).take pos = l₁ := by rw [← hlen, List.take_left]
  have hdrop₂ : (l₁ ++ l₂).drop pos = l₂ := by rw [← hlen, List.drop_left]
  rw [htake₂, hdrop₂, ← hlen, getD_len_append]

theorem set_getD_self {α : Type _} (l : List α) (i : Nat) (d : α)
    (h : i < l.length) : l.set i (l.getD i d) = l := by
  obtain ⟨l₁, l₂, hdec, hlen⟩ := exists_decomp_of_lt_length h d
  calc l.set i (l.getD i d)
      = (l₁ ++ l.getD i d :: l₂).set l₁.length (l.getD i d) := by rw [← hdec, hlen]
    _ = l₁ ++ l.getD i d :: l₂ := set_len_append _ _ _ _
    _ = l := hdec.symm

theorem getD_set_self {α : Type _} (l : List α) (i : Nat) (v d : α)
    (h : i < l.length) : (l.set i v).getD i d = v := by
  obtain ⟨l₁, l₂, hdec, hlen⟩ := exists_decomp_of_lt_length h d
  rw [hdec, ← hlen, set_len_append, getD_len_append]

theorem row_insert_length (r : List Char) (pos : Nat) (c : Char) :
    (editor_row_insert_char r pos c).length = r.length + 1 := by
  unfold editor_row_insert_char
  split <;> simp [List.length_take] <;> omega

/-! ## Field bookkeeping of undo, redo and the edits -/

theorem editor_undo_ustack (s : EState) : (editor_undo s).ustack = s.ustack := by
  unfold editor_undo
  split
  · rfl
  · dsimp only
    split <;> rfl

theorem editor_undo_groupId (s : EState) : (editor_undo s).groupId = s.groupId := by
  unfold editor_undo
  split
  · rfl
  · dsimp only
    split <;> rfl

/-- `undo_log` with the grouping timeout elapsed (`fresh = true`), in a state
with no redo pending and room in the log: a new group is opened and the entry
appended; only the capacity bookkeeping varies. -/
theorem undo_log_fresh (s : EState) (ty : UndoOp) (cr cc ri cp : Nat)
    (cd : Option Char) (hup : s.upos = s.groupId)
    (hlen : s.ustack.length < UNDO_MAX_ENTRIES) :
    ∃ cap, undo_log s true ty cr cc ri cp cd =
      { s with ustack := s.ustack ++ [mkLoggedEntry s ty cr cc ri cp cd],
               ucapacity := cap, groupId := s.groupId + 1,
               upos := s.groupId + 1 } := by
  have hclear : undo_clear_redo s = s := by
    unfold undo_clear_redo
    rw [if_pos (by omega)]
  by_cases hcap0 : s.ucapacity = 0
  · by_cases hfull : 256 ≤ s.ustack.length
    · refine ⟨512, ?_⟩
      simp [undo_log, hclear, undo_maybe_start_group, undo_start_new_group,
        mkLoggedEntry, hcap0, hfull, UNDO_MAX_ENTRIES]
    · refine ⟨256, ?_⟩
      simp [undo_log, hclear, undo_maybe_start_group, undo_start_new_group,
        mkLoggedEntry, hcap0, hfull, UNDO_MAX_ENTRIES]
  · by_cases hfull : s.ucapacity ≤ s.ustack.length
    · have hmax : ¬ UNDO_MAX_ENTRIES ≤ s.ucapacity := by
        simp only [UNDO_MAX_ENTRIES] at hlen ⊢
        omega
      refine ⟨s.ucapacity * 2, ?_⟩
      simp [undo_log, hclear, undo_maybe_start_group, undo_start_new_group,
        mkLoggedEntry, hcap0, hfull, hmax]
    · refine ⟨s.ucapacity, ?_⟩
      simp [undo_log, hclear, undo_maybe_start_group, undo_start_new_group,
        mkLoggedEntry, hcap0, hfull]

/-- A completely-journalled edit in a quiescent well-formed state appends one
entry of a fresh group, and that entry determines both its inverse (for
`editor_undo`) and its replay (for `editor_redo`). -/
theorem applyEdit_fields (s : EState) (e : Edit)
    (hok : editOK s e = true) (hcur : s.cursors = [])
    (hup : s.upos = s.groupId)
    (hlen : s.ustack.length < UNDO_MAX_ENTRIES) :
    ∃ entry : UndoEntry,
      (applyEdit s e).ustack = s.ustack ++ [entry] ∧
      entry.group = s.groupId + 1 ∧
      (applyEdit s e).groupId = s.groupId + 1 ∧
      (applyEdit s e).upos = s.groupId + 1 ∧
      (applyEdit s e).cursors = [] ∧
      undo_apply_entry (applyEdit s e).rows entry = s.rows ∧
      (redo_apply_entry s.rows entry).1 = (applyEdit s e).rows := by
  cases e with
  | insert c =>
    simp only [editOK, Bool.and_eq_true, decide_eq_true_eq] at hok
    obtain ⟨⟨hcy, hcx⟩, hcb⟩ := hok
    have hc : ¬ c = '}' := by simpa using hcb
    obtain ⟨cap, hlog⟩ := undo_log_fresh s .charInsert s.cy s.cx s.cy s.cx (some c) hup hlen
    have hne : ¬ s.cy = s.rows.length := by omega
    have happ : applyEdit s (.insert c) =
        { s with rows := s.rows.set s.cy
                   (editor_row_insert_char (s.rows.getD s.cy []) s.cx c),
                 cx := s.cx + 1,
                 ustack := s.ustack ++ [mkLoggedEntry s .charInsert s.cy s.cx s.cy s.cx (some c)],
                 ucapacity := cap, groupId := s.groupId + 1,
                 upos := s.groupId + 1 } := by
      simp only [applyEdit, editor_insert_char, hcur, ne_eq, not_true_eq_false,
        if_false, hne, hlog, hc, ite_false]
    have hinsrow : editor_row_insert_char (s.rows.getD s.cy []) s.cx c =
        (s.rows.getD s.cy []).take s.cx ++ c :: (s.rows.getD s.cy []).drop s.cx := by
      unfold editor_row_insert_char
      rw [if_neg (by omega)]
    refine ⟨mkLoggedEntry s .charInsert s.cy s.cx s.cy s.cx (some c),
      by rw [happ], rfl, by rw [happ], by rw [happ], by rw [happ]; exact hcur, ?_, ?_⟩
    · rw [happ]
      show undo_apply_entry _ _ = s.rows
      unfold undo_apply_entry mkLoggedEntry
      dsimp only
      rw [if_pos, List.set_set, getD_set_self _ _ _ _ hcy,
        row_delete_insert _ _ _ hcx, set_getD_self _ _ _ hcy]
      constructor
      · simpa using hcy
      · rw [getD_set_self _ _ _ _ hcy, row_insert_length]
        omega
    · rw [happ]
      show (redo_apply_entry s.rows _).1 = _
      unfold redo_apply_entry mkLoggedEntry
      dsimp only
      rw [if_pos hcy, hinsrow]
  | backspace =>
    simp only [editOK, Bool.and_eq_true, decide_eq_true_eq] at hok
    obtain ⟨hcy, hpos, hcx⟩ := hok
    set row := s.rows.getD s.cy [] with hrow
    obtain ⟨cap, hlog⟩ := undo_log_fresh s .charDelete s.cy s.cx s.cy (s.cx - 1)
      (some (row.getD (s.cx - 1) '\x00')) hup hlen
    have hne : ¬ s.cy = s.rows.length := by omega
    have hx0 : ¬ (s.cx = 0 ∧ s.cy = 0) := by omega
    have happ : applyEdit s .backspace =
        { s with rows := s.rows.set s.cy (editor_row_delete_char row (s.cx - 1)),
                 cx := s.cx - 1,
                 ustack := s.ustack ++ [mkLoggedEntry s .charDelete s.cy s.cx s.cy (s.cx - 1)
                   (some (row.getD (s.cx - 1) '\x00'))],
                 ucapacity := cap, groupId := s.groupId + 1,
                 upos := s.groupId + 1 } := by
      simp only [applyEdit, editor_delete_char, hne, if_false, hx0, hpos, if_true, ← hrow,
        hlog]
    have hlt : s.cx - 1 < row.length := by omega
    refine ⟨mkLoggedEntry s .charDelete s.cy s.cx s.cy (s.cx - 1)
        (some (row.getD (s.cx - 1) '\x00')),
      by rw [happ], rfl, by rw [happ], by rw [happ], by rw [happ]; exact hcur, ?_, ?_⟩
    · rw [happ]
      show undo_apply_entry _ _ = s.rows
      unfold undo_apply_entry mkLoggedEntry
      dsimp only
      rw [if_pos (by simpa using hcy), List.set_set, getD_set_self _ _ _ _ hcy]
      rw [row_insert_delete row (s.cx - 1) '\x00' hlt, hrow]
      exact set_getD_self _ _ _ hcy
    · rw [happ]
      show (redo_apply_entry s.rows _).1 = _
      unfold redo_apply_entry mkLoggedEntry
      dsimp only
      rw [if_pos ⟨hcy, by rw [← hrow]; exact hlt⟩, ← hrow]
  | newline =>
    simp only [editOK, Bool.and_eq_true, decide_eq_true_eq] at hok
    obtain ⟨⟨⟨hcy, hpos, hcx⟩, hindentb⟩, htrigb⟩ := hok
    have hindent : capturedIndent (s.rows.getD s.cy []) = [] := by simpa using hindentb
    have htrig : extraIndentTriggered (s.rows.getD s.cy []) s.cx = false := by
      simpa using htrigb
    set row := s.rows.getD s.cy [] with hrow
    obtain ⟨cap, hlog⟩ := undo_log_fresh s .rowSplit s.cy s.cx s.cy s.cx none hup hlen
    have hx0 : ¬ s.cx = 0 := by omega
    obtain ⟨l₁, l₂, hdec, hl₁⟩ := exists_decomp_of_lt_length hcy ([] : List Char)
    rw [← hrow] at hdec
    have hextra : ¬ (s.cy < s.rows.length ∧ extraIndentTriggered row s.cx = true) := by
      rw [htrig]
      simp
    have hsplit : insert_newline_rows s.rows s.cy s.cx =
        (l₁ ++ row.take s.cx :: row.drop s.cx :: l₂, s.cy + 1, 0) := by
      simp only [insert_newline_rows]
      rw [← hrow, if_pos hcy, hindent, if_neg hextra, if_neg hx0]
      have hins : editor_insert_row s.rows (s.cy + 1) (row.drop s.cx) =
          l₁ ++ row :: row.drop s.cx :: l₂ := by
        unfold editor_insert_row
        rw [if_pos (by omega)]
        rw [hdec, ← hl₁, take_len_succ_append, drop_len_succ_append]
        simp
      rw [hins]
      have hset : (l₁ ++ row :: row.drop s.cx :: l₂).set s.cy (row.take s.cx) =
          l₁ ++ row.take s.cx :: row.drop s.cx :: l₂ := by
        rw [← hl₁, set_len_append]
      rw [hset]
      simp
    have happ : applyEdit s .newline =
        { s with rows := l₁ ++ row.take s.cx :: row.drop s.cx :: l₂,
                 cy := s.cy + 1, cx := 0,
                 ustack := s.ustack ++ [mkLoggedEntry s .rowSplit s.cy s.cx s.cy s.cx none],
                 ucapacity := cap, groupId := s.groupId + 1,
                 upos := s.groupId + 1 } := by
      simp only [applyEdit, editor_insert_newline, hx0, if_false, hlog, hsplit]
    refine ⟨mkLoggedEntry s .rowSplit s.cy s.cx s.cy s.cx none,
      by rw [happ], rfl, by rw [happ], by rw [happ], by rw [happ]; exact hcur, ?_, ?_⟩
    · rw [happ]
      show undo_apply_entry _ _ = s.rows
      unfold undo_apply_entry mkLoggedEntry
      dsimp only
      have hlen2 : (l₁ ++ row.take s.cx :: row.drop s.cx :: l₂).length = s.rows.length + 1 := by
        rw [hdec]
        simp only [List.length_append, List.length_cons]
        omega
      rw [if_pos (by omega)]
      have hget1 : (l₁ ++ row.take s.cx :: row.drop s.cx :: l₂).getD s.cy [] = row.take s.cx := by
        rw [← hl₁, getD_len_append]
      have hget2 : (l₁ ++ row.take s.cx :: row.drop s.cx :: l₂).getD (s.cy + 1) [] =
          row.drop s.cx := by
        have : l₁ ++ row.take s.cx :: row.drop s.cx :: l₂ =
            (l₁ ++ [row.take s.cx]) ++ row.drop s.cx :: l₂ := by simp
        rw [this, show s.cy + 1 = (l₁ ++ [row.take s.cx]).length by simp [hl₁],
          getD_len_append]
      rw [hget1, hget2, List.take_append_drop]
      have hset : (l₁ ++ row.take s.cx :: row.drop s.cx :: l₂).set s.cy row =
          l₁ ++ row :: row.drop s.cx :: l₂ := by
        rw [← hl₁, set_len_append]
      rw [hset]
      unfold editor_delete_row
      rw [if_pos (by simp only [List.length_append, List.length_cons]; omega)]
      rw [show s.cy + 1 = l₁.length + 1 by omega]
      have hre : l₁ ++ row :: row.drop s.cx :: l₂ = (l₁ ++ [row]) ++ row.drop s.cx :: l₂ := by
        simp
      rw [take_len_succ_append, hre,
        show l₁.length + 1 + 1 = (l₁ ++ [row]).length + 1 by simp,
        drop_len_succ_append]
      rw [hdec]
      simp
    · rw [happ]
      show (redo_apply_entry s.rows _).1 = _
      unfold redo_apply_entry mkLoggedEntry
      dsimp only
      rw [if_pos hcy, hsplit]

theorem undoSim_refl (s : EState) : UndoSim s s :=
  ⟨rfl, rfl, [], by simp, by simp⟩

theorem undoSim_trans {a b c : EState} (h₁ : UndoSim a b) (h₂ : UndoSim b c) :
    UndoSim a c := by
  obtain ⟨hr₁, hu₁, j₁, hj₁, hg₁⟩ := h₁
  obtain ⟨hr₂, hu₂, j₂, hj₂, hg₂⟩ := h₂
  refine ⟨hr₁.trans hr₂, hu₁.trans hu₂, j₂ ++ j₁, by rw [hj₁, hj₂, List.append_assoc], ?_⟩
  intro e he
  rcases List.mem_append.mp he with h | h
  · exact hg₂ e h
  · rw [← hu₂]
    exact hg₁ e h

/-- Field equations of `editor_undo` when it has work to do. -/
theorem editor_undo_fields (s : EState) (hpos : s.upos ≠ 0) (hst : s.ustack ≠ []) :
    (editor_undo s).rows =
      ((s.ustack.filter fun en => en.group = s.upos).reverse).foldl
        undo_apply_entry s.rows ∧
    (editor_undo s).upos = s.upos - 1 ∧ (editor_undo s).ustack = s.ustack := by
  unfold editor_undo
  rw [if_neg (by simp [hpos, hst])]
  dsimp only
  split <;> exact ⟨rfl, rfl, rfl⟩

/-- `editor_undo` respects the simulation up to redo junk. -/
theorem undoSim_step {s' s : EState} (h : UndoSim s' s) (hpos : s.upos ≠ 0)
    (hst : s.ustack ≠ []) : UndoSim (editor_undo s') (editor_undo s) := by
  obtain ⟨hr, hu, junk, hj, hjg⟩ := h
  have hpos' : s'.upos ≠ 0 := by rw [hu]; exact hpos
  have hst' : s'.ustack ≠ [] := by
    rw [hj]
    intro hcontra
    exact hst (List.append_eq_nil.mp hcontra).1
  obtain ⟨hrows, hupos, hstack⟩ := editor_undo_fields s hpos hst
  obtain ⟨hrows', hupos', hstack'⟩ := editor_undo_fields s' hpos' hst'
  have hfil : (s'.ustack.filter fun en => en.group = s'.upos) =
      (s.ustack.filter fun en => en.group = s.upos) := by
    rw [hj, hu, List.filter_append]
    have : (junk.filter fun en => en.group = s.upos) = [] := by
      rw [List.filter_eq_nil]
      intro e he
      have := hjg e he
      simp only [decide_eq_true_eq]
      omega
    rw [this, List.append_nil]
  refine ⟨?_, ?_, junk, ?_, ?_⟩
  · rw [hrows, hrows', hfil, hr]
  · rw [hupos, hupos', hu]
  · rw [hstack, hstack', hj]
  · intro e he
    rw [hupos]
    have := hjg e he
    omega

/-- Undoing right after a completely-journalled edit simulates the pre-edit
state. -/
theorem undoSim_applyEdit (s : EState) (e : Edit)
    (hok : editOK s e = true) (hcur : s.cursors = [])
    (hup : s.upos = s.groupId)
    (hall : ∀ en ∈ s.ustack, en.group ≤ s.groupId)
    (hlen : s.ustack.length < UNDO_MAX_ENTRIES) :
    UndoSim (editor_undo (applyEdit s e)) s := by
  obtain ⟨entry, hstack, hgroup, hgid, hupos', hcurs, hundo, _⟩ :=
    applyEdit_fields s e hok hcur hup hlen
  have hpos' : (applyEdit s e).upos ≠ 0 := by rw [hupos']; omega
  have hst' : (applyEdit s e).ustack ≠ [] := by rw [hstack]; simp
  obtain ⟨hrows, hupos, hstk⟩ := editor_undo_fields (applyEdit s e) hpos' hst'
  have hfil : ((applyEdit s e).ustack.filter
      fun en => en.group = (applyEdit s e).upos) = [entry] := by
    rw [hstack, hupos', List.filter_append]
    have h₁ : (s.ustack.filter fun en => en.group = s.groupId + 1) = [] := by
      rw [List.filter_eq_nil]
      intro en hen
      have := hall en hen
      simp only [decide_eq_true_eq]
      omega
    have h₂ : ([entry].filter fun en => en.group = s.groupId + 1) = [entry] := by
      simp [hgroup]
    rw [h₁, h₂, List.nil_append]
  refine ⟨?_, ?_, [entry], ?_, ?_⟩
  · rw [hrows, hfil]
    simpa using hundo
  · rw [hupos, hupos', hup]
    omega
  · rw [hstk, hstack]
  · intro en hen
    simp only [List.mem_singleton] at hen
    subst hen
    rw [hgroup, hup]
    omega

/-- Peel-off, undo phase: `k` completely-journalled edits from a quiescent
well-formed state are unwound by `k` undos, up to redo junk. -/
theorem undo_phase (es : List Edit) : ∀ s : EState, undoWF s = true →
    editsOK s es = true → s.ustack.length + es.length ≤ UNDO_MAX_ENTRIES →
    UndoSim (editor_undo^[es.length] (applyEdits s es)) s := by
  induction es with
  | nil => exact fun s _ _ _ => undoSim_refl s
  | cons e rest ih =>
    intro s hwf hok hlen
    simp only [undoWF, Bool.and_eq_true, beq_iff_eq, List.all_eq_true,
      decide_eq_true_eq, List.isEmpty_iff] at hwf
    obtain ⟨⟨hup, hall⟩, hcur⟩ := hwf
    simp only [editsOK, Bool.and_eq_true] at hok
    obtain ⟨hok1, hokrest⟩ := hok
    have hlen1 : s.ustack.length < UNDO_MAX_ENTRIES := by
      simp only [List.length_cons] at hlen
      omega
    obtain ⟨entry, hstack, hgroup, hgid, hupos', hcurs, hundo, _⟩ :=
      applyEdit_fields s e hok1 hcur hup hlen1
    have hwf1 : undoWF (applyEdit s e) = true := by
      simp only [undoWF, Bool.and_eq_true, beq_iff_eq, List.all_eq_true,
        decide_eq_true_eq, List.isEmpty_iff]
      refine ⟨⟨by rw [hupos', hgid], ?_⟩, hcurs⟩
      intro en hen
      rw [hstack] at hen
      rcases List.mem_append.mp hen with h | h
      · have := hall en h
        rw [hgid]
        omega
      · simp only [List.mem_singleton] at h
        subst h
        rw [hgroup, hgid]
    have hlenr : (applyEdit s e).ustack.length + rest.length ≤ UNDO_MAX_ENTRIES := by
      rw [hstack]
      simp only [List.length_append, List.length_cons, List.length_nil] at hlen ⊢
      omega
    have hmain := ih (applyEdit s e) hwf1 hokrest hlenr
    rw [show applyEdits s (e :: rest) = applyEdits (applyEdit s e) rest from rfl,
      show (e :: rest).length = rest.length + 1 from rfl,
      Function.iterate_succ_apply']
    refine undoSim_trans (undoSim_step hmain ?_ ?_)
      (undoSim_applyEdit s e hok1 hcur hup hall hlen1)
    · rw [hupos']
      omega
    · rw [hstack]
      simp

/-- Field equations of `editor_redo` when it has work to do. -/
theorem editor_redo_fields (s : EState) (hlt : s.upos < s.groupId)
    (hst : s.ustack ≠ []) :
    (editor_redo s).rows =
      ((s.ustack.filter fun en => en.group = s.upos + 1).foldl
        (fun (acc : List (List Char) × Option (Nat × Nat)) e =>
          let r := redo_apply_entry acc.1 e
          (r.1, match r.2 with
            | some col => some (e.cursorRow, col)
            | none => some (e.cursorRow, e.cursorCol)))
        (s.rows, none)).1 ∧
    (editor_redo s).upos = s.upos + 1 ∧ (editor_redo s).ustack = s.ustack ∧
    (editor_redo s).groupId = s.groupId := by
  unfold editor_redo
  rw [if_neg (by simp [hst]; omega)]
  dsimp only
  split <;> exact ⟨rfl, rfl, rfl, rfl⟩

/-- Each completely-journalled edit appends entries of strictly larger group
ids and advances the group counter by one. -/
theorem applyEdits_stack_suffix (es : List Edit) : ∀ s : EState,
    undoWF s = true → editsOK s es = true →
    s.ustack.length + es.length ≤ UNDO_MAX_ENTRIES →
    (applyEdits s es).groupId = s.groupId + es.length ∧
    ∃ post, (applyEdits s es).ustack = s.ustack ++ post ∧
      ∀ en ∈ post, s.groupId < en.group := by
  induction es with
  | nil => exact fun s _ _ _ => ⟨rfl, [], by simp [applyEdits], by simp⟩
  | cons e rest ih =>
    intro s hwf hok hlen
    simp only [undoWF, Bool.and_eq_true, beq_iff_eq, List.all_eq_true,
      decide_eq_true_eq, List.isEmpty_iff] at hwf
    obtain ⟨⟨hup, hall⟩, hcur⟩ := hwf
    simp only [editsOK, Bool.and_eq_true] at hok
    obtain ⟨hok1, hokrest⟩ := hok
    have hlen1 : s.ustack.length < UNDO_MAX_ENTRIES := by
      simp only [List.length_cons] at hlen
      omega
    obtain ⟨entry, hstack, hgroup, hgid, hupos', hcurs, _, _⟩ :=
      applyEdit_fields s e hok1 hcur hup hlen1
    have hwf1 : undoWF (applyEdit s e) = true := by
      simp only [undoWF, Bool.and_eq_true, beq_iff_eq, List.all_eq_true,
        decide_eq_true_eq, List.isEmpty_iff]
      refine ⟨⟨by rw [hupos', hgid], ?_⟩, hcurs⟩
      intro en hen
      rw [hstack] at hen
      rcases List.mem_append.mp hen with h | h
      · have := hall en h
        rw [hgid]
        omega
      · simp only [List.mem_singleton] at h
        subst h
        rw [hgroup, hgid]
    have hlenr : (applyEdit s e).ustack.length + rest.length ≤ UNDO_MAX_ENTRIES := by
      rw [hstack]
      simp only [List.length_append, List.length_cons, List.length_nil] at hlen ⊢
      omega
    obtain ⟨hgid', post₁, hstk₁, hpost₁⟩ := ih (applyEdit s e) hwf1 hokrest hlenr
    refine ⟨?_, entry :: post₁, ?_, ?_⟩
    · rw [show applyEdits s (e :: rest) = applyEdits (applyEdit s e) rest from rfl,
        hgid', hgid, List.length_cons]
      omega
    · rw [show applyEdits s (e :: rest) = applyEdits (applyEdit s e) rest from rfl,
        hstk₁, hstack]
      simp
    · intro en hen
      rcases List.mem_cons.mp hen with h | h
      · subst h
        rw [hgroup]
        omega
      · have := hpost₁ en h
        rw [hgid] at this
        omega

/-- Replay phase: after a full undo, `k` redos rebuild the rows produced by
the `k` journalled edits. -/
theorem redo_phase (es : List Edit) : ∀ s T : EState, undoWF s = true →
    editsOK s es = true → s.ustack.length + es.length ≤ UNDO_MAX_ENTRIES →
    T.rows = s.rows → T.upos = s.groupId → T.groupId = s.groupId + es.length →
    T.ustack = (applyEdits s es).ustack →
    (editor_redo^[es.length] T).rows = (applyEdits s es).rows := by
  induction es with
  | nil =>
    intro s T _ _ _ hrows _ _ _
    simpa using hrows
  | cons e rest ih =>
    intro s T hwf hok hlen hrows hupos hgidT hstkT
    simp only [undoWF, Bool.and_eq_true, beq_iff_eq, List.all_eq_true,
      decide_eq_true_eq, List.isEmpty_iff] at hwf
    obtain ⟨⟨hup, hall⟩, hcur⟩ := hwf
    simp only [editsOK, Bool.and_eq_true] at hok
    obtain ⟨hok1, hokrest⟩ := hok
    have hlen1 : s.ustack.length < UNDO_MAX_ENTRIES := by
      simp only [List.length_cons] at hlen
      omega
    obtain ⟨entry, hstack, hgroup, hgid, hupos', hcurs, _, hredo⟩ :=
      applyEdit_fields s e hok1 hcur hup hlen1
    have hwf1 : undoWF (applyEdit s e) = true := by
      simp only [undoWF, Bool.and_eq_true, beq_iff_eq, List.all_eq_true,
        decide_eq_true_eq, List.isEmpty_iff]
      refine ⟨⟨by rw [hupos', hgid], ?_⟩, hcurs⟩
      intro en hen
      rw [hstack] at hen
      rcases List.mem_append.mp hen with h | h
      · have := hall en h
        rw [hgid]
        omega
      · simp only [List.mem_singleton] at h
        subst h
        rw [hgroup, hgid]
    have hlenr : (applyEdit s e).ustack.length + rest.length ≤ UNDO_MAX_ENTRIES := by
      rw [hstack]
      simp only [List.length_append, List.length_cons, List.length_nil] at hlen ⊢
      omega
    obtain ⟨hgidr, post₁, hstk₁, hpost₁⟩ :=
      applyEdits_stack_suffix rest (applyEdit s e) hwf1 hokrest hlenr
    rw [hgid] at hpost₁
    have happs : applyEdits s (e :: rest) = applyEdits (applyEdit s e) rest := rfl
    have hTstack : T.ustack = s.ustack ++ [entry] ++ post₁ := by
      rw [hstkT, happs, hstk₁, hstack]
    have hTne : T.ustack ≠ [] := by
      rw [hTstack]
      simp
    have hTlt : T.upos < T.groupId := by
      rw [hupos, hgidT, List.length_cons]
      omega
    obtain ⟨hrrows, hrupos, hrstk, hrgid⟩ := editor_redo_fields T hTlt hTne
    have hfil : (T.ustack.filter fun en => en.group = T.upos + 1) = [entry] := by
      rw [hTstack, hupos, List.filter_append, List.filter_append]
      have h₁ : (s.ustack.filter fun en => en.group = s.groupId + 1) = [] := by
        rw [List.filter_eq_nil]
        intro en hen
        have := hall en hen
        simp only [decide_eq_true_eq]
        omega
      have h₂ : ([entry].filter fun en => en.group = s.groupId + 1) = [entry] := by
        simp [hgroup]
      have h₃ : (post₁.filter fun en => en.group = s.groupId + 1) = [] := by
        rw [List.filter_eq_nil]
        intro en hen
        have := hpost₁ en hen
        simp only [decide_eq_true_eq]
        omega
      rw [h₁, h₂, h₃]
      simp
    rw [happs, show (e :: rest).length = rest.length + 1 from rfl,
      Function.iterate_succ_apply]
    refine ih (applyEdit s e) (editor_redo T) hwf1 hokrest hlenr ?_ ?_ ?_ ?_
    · rw [hrrows, hfil]
      simpa [hrows] using hredo
    · rw [hrupos, hupos, hgid]
    · rw [hrgid, hgidT, hgid, List.length_cons]
      omega
    · rw [hrstk, hstkT, happs]

theorem undo_iterate_ustack (n : Nat) (x : EState) :
    (editor_undo^[n] x).ustack = x.ustack := by
  induction n generalizing x with
  | zero => rfl
  | succ k ihk =>
    rw [Function.iterate_succ_apply', editor_undo_ustack, ihk]

theorem undo_iterate_groupId (n : Nat) (x : EState) :
    (editor_undo^[n] x).groupId = x.groupId := by
  induction n generalizing x with
  | zero => rfl
  | succ k ihk =>
    rw [Function.iterate_succ_apply', editor_undo_groupId, ihk]

/-- **C2, counterexample.** A single newline edit on the row `"  ab"` at
column 3 produces one undo group, but one undo does not restore the buffer:
the auto-indentation inserted into the new row is not journalled, so the
row-split inverse (a plain join) yields `"  a  b"` instead of `"  ab"`. -/
theorem undo_newline_autoindent_not_restored :
    (editor_undo^[1] (applyEdits (mkState [[' ', ' ', 'a', 'b']] 0 3)
        [Edit.newline])).rows ≠ (mkState [[' ', ' ', 'a', 'b']] 0 3).rows ∧
    (editor_undo^[1] (applyEdits (mkState [[' ', ' ', 'a', 'b']] 0 3)
        [Edit.newline])).rows = [[' ', ' ', 'a', ' ', ' ', 'b']] := by
  constructor
  · decide
  · decide

/-- **C2.** (Amended.)  For every sequence of completely-journalled edits
(character inserts other than `'}'`, in-line backspaces, and mid-line
newlines that pick up no auto-indentation) from a quiescent well-formed
state, each edit opening its own undo group — `k` edits thus produce `k`
groups — applying undo `k` times restores the buffer rows to their pre-edit
state, and redoing `k` times afterwards returns the rows to the post-edit
state.  (The log must not overflow: at most `UNDO_MAX_ENTRIES` entries in
total.) -/
theorem undo_redo_peel_off_journalled (s : EState) (es : List Edit)
    (hwf : undoWF s = true) (hok : editsOK s es = true)
    (hlen : s.ustack.length + es.length ≤ UNDO_MAX_ENTRIES) :
    (editor_undo^[es.length] (applyEdits s es)).rows = s.rows ∧
    (editor_redo^[es.length] (editor_undo^[es.length] (applyEdits s es))).rows =
      (applyEdits s es).rows := by
  obtain ⟨hrows, hupos, junk, hjunk, hjg⟩ := undo_phase es s hwf hok hlen
  refine ⟨hrows, ?_⟩
  have hupeq : s.upos = s.groupId := by
    simp only [undoWF, Bool.and_eq_true, beq_iff_eq] at hwf
    exact hwf.1.1
  obtain ⟨hgid, _, _, _⟩ := applyEdits_stack_suffix es s hwf hok hlen
  exact redo_phase es s (editor_undo^[es.length] (applyEdits s es)) hwf hok hlen
    hrows (by rw [hupos, hupeq])
    (by rw [undo_iterate_groupId, hgid])
    (by rw [undo_iterate_ustack])

/-- Witness for C2: inserting `'x'` into `["ab"]` at `(0,1)` and then
backspacing it, as two fresh groups, is unwound by two undos and replayed by
two redos. -/
theorem undo_redo_peel_off_journalled_witness :
    (editor_undo^[2] (applyEdits (mkState [['a', 'b']] 0 1)
        [Edit.insert 'x', Edit.backspace])).rows = (mkState [['a', 'b']] 0 1).rows ∧
    (editor_redo^[2] (editor_undo^[2] (applyEdits (mkState [['a', 'b']] 0 1)
        [Edit.insert 'x', Edit.backspace]))).rows =
      (applyEdits (mkState [['a', 'b']] 0 1) [Edit.insert 'x', Edit.backspace]).rows :=
  undo_redo_peel_off_journalled (mkState [['a', 'b']] 0 1)
    [Edit.insert 'x', Edit.backspace] (by decide) (by decide) (by decide)

/-- **C9, counterexample.** Forward delete at the last position of the last
row (`["ab"]`, cursor `(0,2)`) leaves the rows unchanged but is not a no-op
on the cursor: the right-arrow half of the key moves the cursor to the start
of the one-past-the-end line `(1,0)` and the backspace half then does
nothing, so the cursor position changes. -/
theorem forward_delete_at_eof_moves_cursor :
    (process_del_key (mkState [['a', 'b']] 0 2) true).rows =
      (mkState [['a', 'b']] 0 2).rows ∧
    ¬((process_del_key (mkState [['a', 'b']] 0 2) true).cy = 0 ∧
      (process_del_key (mkState [['a', 'b']] 0 2) true).cx = 2) := by
  constructor
  · decide
  · decide

/-- **C9.** (Amended.)  Forward delete is the composition of a right-arrow
move and a backspace (this is the definition of `process_del_key`, taken
from the `DEL_KEY` dispatch), and performed at the last position of the last
row it leaves the buffer rows and the undo log unchanged, but moves the
cursor to `(row_count, 0)`, the start of the one-past-the-end line. -/
theorem forward_delete_at_eof_rows_unchanged (s : EState) (fresh : Bool)
    (hcur : s.cursors = []) (hne : s.rows ≠ [])
    (hcy : s.cy + 1 = s.rows.length)
    (hcx : s.cx = (s.rows.getD s.cy []).length) :
    process_del_key s fresh = editor_delete_char (editor_move_cursor_right s) fresh ∧
    (process_del_key s fresh).rows = s.rows ∧
    (process_del_key s fresh).cy = s.rows.length ∧
    (process_del_key s fresh).cx = 0 ∧
    (process_del_key s fresh).ustack = s.ustack := by
  have h1 : s.cy < s.rows.length := by omega
  have h2 : ¬ s.cx < (s.rows.getD s.cy []).length := by omega
  have hmv : editor_move_cursor_right s = { s with cy := s.cy + 1, cx := 0 } := by
    simp only [editor_move_cursor_right, if_pos h1, if_neg h2, if_pos hcx,
      Nat.not_lt_zero, if_false]
  have hdel : editor_delete_char { s with cy := s.cy + 1, cx := 0 } fresh =
      { s with cy := s.cy + 1, cx := 0 } := by
    unfold editor_delete_char
    rw [if_pos (by simpa using hcy)]
  have hfin : process_del_key s fresh = { s with cy := s.cy + 1, cx := 0 } := by
    rw [process_del_key, hmv, hdel]
  refine ⟨rfl, ?_, ?_, ?_, ?_⟩ <;> rw [hfin]
  · rw [← hcy]

/-- Witness for C9 at buffer `["ab"]` with the cursor at `(0,2)`. -/
theorem forward_delete_at_eof_rows_unchanged_witness :
    (process_del_key (mkState [['a', 'b']] 0 2) true).rows =
      (mkState [['a', 'b']] 0 2).rows ∧
    (process_del_key (mkState [['a', 'b']] 0 2) true).cy =
      (mkState [['a', 'b']] 0 2).rows.length :=
  ⟨(forward_delete_at_eof_rows_unchanged (mkState [['a', 'b']] 0 2) true
      (by decide) (by decide) (by decide) (by decide)).2.1,
   (forward_delete_at_eof_rows_unchanged (mkState [['a', 'b']] 0 2) true
      (by decide) (by decide) (by decide) (by decide)).2.2.1⟩

/-- **C7.** With a dirty buffer, the editor does not exit on the first,
second or third consecutive press of the quit key — the third press still
shows the warning and decrements the counter to zero — and it exits on the
fourth.  (The source documents `MITER_QUIT_TIMES = 3` as the "Number of
Ctrl-Q presses required to quit with unsaved changes", and its menu message
says "Ctrl+Q 3x to quit", so the claim's and the spec's three-press exit is
the documented intent; the dispatch code requires `MITER_QUIT_TIMES + 1`
presses.)  A clean buffer exits on the first press, and any other dispatched
key resets the counter to `MITER_QUIT_TIMES`. -/
theorem quit_key_exits_on_fourth_press :
    (pressQuitN 1 true).exited = false ∧
    (pressQuitN 2 true).exited = false ∧
    (pressQuitN 3 true).exited = false ∧
    (pressQuitN 3 true).quitTimes = 0 ∧
    (pressQuitN 4 true).exited = true ∧
    (pressQuitN 1 false).exited = true ∧
    (∀ s : QuitState, s.exited = false →
      (processQuitKey s .other).quitTimes = MITER_QUIT_TIMES) := by
  refine ⟨by decide, by decide, by decide, by decide, by decide, by decide, ?_⟩
  intro s hs
  simp [processQuitKey, hs]

/-- **C10.** `multicursor_add(line, column)` returns 0 and leaves the state
unchanged when the primary cursor or an existing secondary already stands at
`(line, column)`; otherwise it appends exactly one secondary cursor there and
returns 1.  Hence when the cursor set was pairwise distinct, it stays
pairwise distinct after any add. -/
theorem multicursor_add_spec (s : EState) (line column : Nat) :
    (((s.cy = line ∧ s.cx = column) ∨
        ∃ cur ∈ s.cursors, cur.line = line ∧ cur.column = column) →
      multicursor_add s line column = (0, s)) ∧
    (¬((s.cy = line ∧ s.cx = column) ∨
        ∃ cur ∈ s.cursors, cur.line = line ∧ cur.column = column) →
      multicursor_add s line column =
        (1, { s with cursors := s.cursors ++ [⟨line, column⟩] })) ∧
    ((allCursors s).Pairwise (· ≠ ·) →
      (allCursors (multicursor_add s line column).2).Pairwise (· ≠ ·)) := by
  have hany : (s.cursors.any fun cur => cur.line == line && cur.column == column) = true ↔
      ∃ cur ∈ s.cursors, cur.line = line ∧ cur.column = column := by
    simp [List.any_eq_true]
  refine ⟨?_, ?_, ?_⟩
  · intro h
    rcases h with h | h
    · unfold multicursor_add
      rw [if_pos h]
    · unfold multicursor_add
      split
      · rfl
      · rw [if_pos (hany.mpr h)]
  · intro h
    have h₁ : ¬(s.cy = line ∧ s.cx = column) := fun hc => h (Or.inl hc)
    have h₂ : ¬∃ cur ∈ s.cursors, cur.line = line ∧ cur.column = column :=
      fun hc => h (Or.inr hc)
    unfold multicursor_add
    rw [if_neg h₁, if_neg (by rw [hany]; exact h₂)]
  · intro hpw
    by_cases hocc : (s.cy = line ∧ s.cx = column) ∨
        ∃ cur ∈ s.cursors, cur.line = line ∧ cur.column = column
    · -- occupied: state unchanged
      have : multicursor_add s line column = (0, s) := by
        rcases hocc with h | h
        · unfold multicursor_add
          rw [if_pos h]
        · unfold multicursor_add
          split
          · rfl
          · rw [if_pos (hany.mpr h)]
      rw [this]
      exact hpw
    · have h₁ : ¬(s.cy = line ∧ s.cx = column) := fun hc => hocc (Or.inl hc)
      have h₂ : ¬∃ cur ∈ s.cursors, cur.line = line ∧ cur.column = column :=
        fun hc => hocc (Or.inr hc)
      have heq : multicursor_add s line column =
          (1, { s with cursors := s.cursors ++ [⟨line, column⟩] }) := by
        unfold multicursor_add
        rw [if_neg h₁, if_neg (by rw [hany]; exact h₂)]
      rw [heq]
      simp only [allCursors, List.pairwise_cons] at hpw ⊢
      obtain ⟨hprim, hsec⟩ := hpw
      constructor
      · intro cur hcur
        rcases List.mem_append.mp hcur with h | h
        · exact hprim cur h
        · simp only [List.mem_singleton] at h
          subst h
          intro hcontra
          exact h₁ ⟨congrArg CursorPos.line hcontra, congrArg CursorPos.column hcontra⟩
      · rw [List.pairwise_append]
        refine ⟨hsec, List.pairwise_singleton _ _, ?_⟩
        intro a ha b hb
        simp only [List.mem_singleton] at hb
        subst hb
        intro hcontra
        exact h₂ ⟨a, ha, congrArg CursorPos.line hcontra,
          congrArg CursorPos.column hcontra⟩

/-- Witness for C10: with primary `(0,0)` and a secondary at `(1,0)`, adding
`(1,0)` is refused and adding `(2,3)` appends one cursor, in both cases
keeping the cursor set duplicate-free. -/
theorem multicursor_add_spec_witness :
    multicursor_add { mkState [['a'], ['b'], ['c']] 0 0 with
        cursors := [⟨1, 0⟩] } 1 0 =
      (0, { mkState [['a'], ['b'], ['c']] 0 0 with cursors := [⟨1, 0⟩] }) ∧
    multicursor_add { mkState [['a'], ['b'], ['c']] 0 0 with
        cursors := [⟨1, 0⟩] } 2 3 =
      (1, { mkState [['a'], ['b'], ['c']] 0 0 with cursors := [⟨1, 0⟩, ⟨2, 3⟩] }) :=
  ⟨(multicursor_add_spec _ 1 0).1 (Or.inr ⟨⟨1, 0⟩, by decide, rfl, rfl⟩),
   (multicursor_add_spec _ 2 3).2.1 (by decide)⟩

/-! ## Search index (C8) -/

/-- The +1-stepping scan records exactly the offsets at which the query
occurs, in increasing order. -/
theorem searchOccsFrom_eq_filter_range (q : List Char) (hay : List Char) :
    ∀ i : Nat, searchOccsFrom q hay i =
      ((List.range hay.length).filter fun j => q.isPrefixOf (hay.drop j)).map
        (· + i) := by
  induction hay with
  | nil => intro i; rfl
  | cons c rest ih =>
    intro i
    rw [show (c :: rest).length = rest.length + 1 from rfl, List.range_succ_eq_map]
    rw [List.filter_cons]
    simp only [List.drop_zero]
    rw [List.filter_map]
    have hfun : ((fun x => x + i) ∘ Nat.succ) = fun x => x + (i + 1) := by
      funext j
      simp only [Function.comp_apply, Nat.succ_eq_add_one]
      omega
    have hpred : ((fun j => q.isPrefixOf (List.drop j (c :: rest))) ∘ Nat.succ) =
        fun j => q.isPrefixOf (List.drop j rest) := by
      funext j
      simp [Function.comp, Nat.succ_eq_add_one, List.drop_succ_cons]
    by_cases hp : q.isPrefixOf (c :: rest)
    · rw [if_pos (by simpa using hp)]
      simp only [searchOccsFrom, if_pos hp, List.map_cons, Nat.zero_add]
      rw [ih (i + 1), List.map_map, hfun, hpred]
    · rw [if_neg (by simpa using hp)]
      simp only [searchOccsFrom, if_neg hp]
      rw [ih (i + 1), List.map_map, hfun, hpred]

/-- **C8, counterexample.** With rows `["aaa"]` and query `"aa"`,
`simple_search` records the two triples `(0,0,2)` and `(0,1,2)`, whose spans
`[0,2)` and `[1,3)` overlap: stepping +1 after each hit records overlapping
occurrences, contradicting "the recorded occurrences being non-overlapping". -/
theorem simple_search_records_overlapping :
    simple_search [['a', 'a', 'a']] ['a', 'a'] = [(0, 0, 2), (0, 1, 2)] ∧
    (0 : Nat) < 0 + 2 ∧ 0 < 1 ∧ 1 < 0 + 2 := by
  constructor
  · decide
  · decide

/-- **C8.** (Amended.)  For every non-empty query, `simple_search` records,
in row order and in increasing offset order within a row, one
`(line, render_offset, query_length)` triple per occurrence of the query in
the row's render string — every offset at which the query matches, so
occurrences of a self-overlapping query can overlap (the scan steps by +1
after each hit) — and an empty query clears the results and records
nothing. -/
theorem simple_search_spec (renderRows : List (List Char)) (query : List Char) :
    simple_search renderRows [] = [] ∧
    (query ≠ [] → simple_search renderRows query =
      (renderRows.enum).flatMap fun p =>
        ((List.range p.2.length).filter fun off => query.isPrefixOf (p.2.drop off)).map
          fun off => (p.1, off, query.length)) := by
  refine ⟨by simp [simple_search], fun hq => ?_⟩
  have hocc : ∀ hay : List Char, searchOccsFrom query hay 0 =
      (List.range hay.length).filter fun off => query.isPrefixOf (hay.drop off) := by
    intro hay
    rw [searchOccsFrom_eq_filter_range]
    simp
  simp only [simple_search, if_neg hq, hocc]

/-- Witness for C8: searching `"aba"` for `"a"` records offsets 0 and 2. -/
theorem simple_search_spec_witness :
    simple_search [['a', 'b', 'a']] ['a'] =
      (([['a', 'b', 'a']].enum).flatMap fun p =>
        ((List.range p.2.length).filter fun off => ['a'].isPrefixOf (p.2.drop off)).map
          fun off => (p.1, off, (['a'] : List Char).length)) :=
  (simple_search_spec [['a', 'b', 'a']] ['a']).2 (by decide)

/-! ## File round-trip (C3) -/

/-- `getline` chunking of a saved row: the chunk is the row plus its newline. -/
theorem getlineChunks_append (r s : List Char) (h : '\n' ∉ r) :
    getlineChunks (r ++ '\n' :: s) = (r ++ ['\n']) :: getlineChunks s := by
  induction r with
  | nil => simp [getlineChunks]
  | cons c rest ih =>
    have hc : ¬ c = '\n' := fun hc => h (hc ▸ List.mem_cons_self c rest)
    have hrest : '\n' ∉ rest := fun hm => h (List.mem_cons_of_mem c hm)
    simp only [List.cons_append, getlineChunks, if_neg hc, List.append_eq, ih hrest]

/-- Trimming the trailing newline of a saved row restores the row, provided
the row does not itself end in CR (or LF). -/
theorem trimTrailingCRLF_append_newline (r : List Char) (h : '\n' ∉ r)
    (hr : r.getLast? ≠ some '\r') :
    trimTrailingCRLF (r ++ ['\n']) = r := by
  unfold trimTrailingCRLF
  rw [List.reverse_append]
  simp only [List.reverse_cons, List.reverse_nil, List.nil_append,
    List.singleton_append, List.dropWhile_cons]
  rw [if_pos (by simp)]
  cases hrev : r.reverse with
  | nil =>
    simp only [List.dropWhile_nil, List.reverse_nil]
    exact (List.reverse_eq_nil_iff.mp hrev).symm
  | cons x t =>
    have hx : x ∈ r := by
      rw [← List.mem_reverse, hrev]
      exact List.mem_cons_self x t
    have hx1 : ¬ x = '\n' := fun hc => h (hc ▸ hx)
    have hx2 : ¬ x = '\r' := by
      intro hc
      apply hr
      rw [← List.head?_reverse, hrev, hc]
      rfl
    rw [List.dropWhile_cons, if_neg (by simp [hx1, hx2]), ← hrev, List.reverse_reverse]

/-- **C3, counterexample.** A buffer whose single row is `"a\r"` does not
survive the save/open round trip: the save appends `'\n'` and the open trims
the trailing CR together with the LF, reloading the row as `"a"`. -/
theorem open_save_not_identity :
    editor_open_rows (editor_rows_to_string [['a', '\r']]) = [['a']] ∧
    editor_open_rows (editor_rows_to_string [['a', '\r']]) ≠ [['a', '\r']] := by
  constructor
  · decide
  · decide

/-- **C3.** (Amended.)  Saving writes each row's chars followed by exactly
one `'\n'` and opening creates one row per line with trailing CR/LF trimmed;
the round trip `open(save(rows)) = rows` holds for every buffer whose rows
contain no `'\n'` and do not end in `'\r'` (rows ending in CR lose it to the
open-side trim, which is what the counterexample exhibits). -/
theorem open_save_roundtrip (rows : List (List Char))
    (h : ∀ r ∈ rows, '\n' ∉ r ∧ r.getLast? ≠ some '\r') :
    editor_open_rows (editor_rows_to_string rows) = rows := by
  induction rows with
  | nil => rfl
  | cons r rest ih =>
    obtain ⟨h1, h2⟩ := h r (List.mem_cons_self r rest)
    have hstr : editor_rows_to_string (r :: rest) =
        r ++ '\n' :: editor_rows_to_string rest := rfl
    unfold editor_open_rows
    rw [hstr, getlineChunks_append _ _ h1, List.map_cons,
      trimTrailingCRLF_append_newline r h1 h2]
    have := ih fun x hx => h x (List.mem_cons_of_mem r hx)
    unfold editor_open_rows at this
    rw [this]

/-- Witness for C3 at the buffer `["foo", ""]`. -/
theorem open_save_roundtrip_witness :
    editor_open_rows (editor_rows_to_string [['f', 'o', 'o'], []]) =
      [['f', 'o', 'o'], []] :=
  open_save_roundtrip [['f', 'o', 'o'], []] (by decide)

/-! ## Undo-log bookkeeping (C5, C6) -/

/-- On a group-monotone stack, truncating at the first index whose group
exceeds `pos` is exactly filtering away the groups above `pos`. -/
theorem take_findIdx_eq_filter (l : List UndoEntry) (pos : Nat)
    (hmono : l.Pairwise fun a b => a.group ≤ b.group) :
    l.take (l.findIdx fun e => pos < e.group) =
      l.filter fun e => e.group ≤ pos := by
  induction l with
  | nil => rfl
  | cons a t ih =>
    rw [List.pairwise_cons] at hmono
    obtain ⟨ha, ht⟩ := hmono
    rw [List.findIdx_cons, List.filter_cons]
    by_cases hp : pos < a.group
    · rw [if_neg (by simpa using hp)]
      have : (t.filter fun e => decide (e.group ≤ pos)) = [] := by
        rw [List.filter_eq_nil]
        intro e he
        have := ha e he
        simp only [decide_eq_true_eq]
        omega
      simp [hp, this]
    · rw [if_pos (by simpa using Nat.le_of_not_lt hp)]
      simp only [show decide (pos < a.group) = false by simpa using hp, cond_false]
      rw [List.take_succ_cons, ih ht]

/-- `undo_clear_redo` on a well-formed stack: the retained entries are
exactly those with group at or below the redo position, the redo position is
untouched, and afterwards no entry's group exceeds the (possibly pulled
down) group counter; monotonicity survives. -/
theorem undo_clear_redo_spec (s : EState)
    (hmono : s.ustack.Pairwise fun a b => a.group ≤ b.group)
    (hall : ∀ en ∈ s.ustack, en.group ≤ s.groupId)
    (hup : s.upos ≤ s.groupId) :
    (undo_clear_redo s).ustack = s.ustack.filter (fun en => en.group ≤ s.upos) ∧
    (undo_clear_redo s).upos = s.upos ∧
    (∀ en ∈ (undo_clear_redo s).ustack, en.group ≤ (undo_clear_redo s).groupId) ∧
    ((undo_clear_redo s).ustack.Pairwise fun a b => a.group ≤ b.group) := by
  unfold undo_clear_redo
  by_cases h1 : s.groupId ≤ s.upos
  · rw [if_pos h1]
    have heq : (s.ustack.filter fun en => decide (en.group ≤ s.upos)) = s.ustack := by
      rw [List.filter_eq_self]
      intro e he
      have := hall e he
      simp only [decide_eq_true_eq]
      omega
    exact ⟨heq.symm, rfl, hall, hmono⟩
  · rw [if_neg h1]
    by_cases h2 : s.ustack = []
    · rw [if_pos h2]
      refine ⟨?_, rfl, ?_, hmono⟩
      · rw [h2]
        rfl
      · rw [h2]
        intro en hen
        simp at hen
    · rw [if_neg h2]
      have htake := take_findIdx_eq_filter s.ustack s.upos hmono
      refine ⟨htake, rfl, ?_, ?_⟩
      · intro en hen
        rw [htake] at hen
        have := List.of_mem_filter hen
        simpa using this
      · rw [htake]
        exact hmono.sublist (List.filter_sublist _)

/-- `undo_maybe_start_group` either opens a new group or leaves the state
alone. -/
theorem undo_maybe_start_group_cases (s : EState) (f fresh : Bool) :
    undo_maybe_start_group s f fresh = undo_start_new_group s ∨
      undo_maybe_start_group s f fresh = s := by
  unfold undo_maybe_start_group
  split
  · exact Or.inl rfl
  · split
    · exact Or.inl rfl
    · exact Or.inr rfl

/-- Decomposition of `undo_log`: after the redo truncation, some grouping
decision and stack housekeeping (which can only drop oldest entries), the
new entry is appended with the final group id, which also becomes the redo
position. -/
theorem undo_log_decomp (s : EState) (fresh : Bool) (ty : UndoOp)
    (cr cc ri cp : Nat) (cd : Option Char) :
    ∃ s3 : EState,
      (∃ k, s3.ustack = (undo_clear_redo s).ustack.drop k) ∧
      ((undo_clear_redo s).groupId ≤ s3.groupId ∧
        s3.groupId ≤ (undo_clear_redo s).groupId + 1) ∧
      s3.rows = s.rows ∧
      undo_log s fresh ty cr cc ri cp cd =
        { s3 with
          ustack := s3.ustack ++
            [{ group := s3.groupId, op := ty, cursorRow := cr, cursorCol := cc,
               rowIdx := ri, charPos := cp, chData := cd,
               rowContent :=
                 if ty = .rowDelete ∨ ty = .rowInsert then s3.rows[ri]? else none }],
          upos := s3.groupId } := by
  have hrows : (undo_clear_redo s).rows = s.rows := by
    unfold undo_clear_redo
    split
    · rfl
    · split <;> rfl
  refine ⟨_, ?_, ?_, ?_, rfl⟩
  · -- the housekeeping stack is a drop of the truncated stack
    rcases undo_maybe_start_group_cases (undo_clear_redo s)
        (decide (ty = UndoOp.rowInsert ∨ ty = UndoOp.rowDelete ∨ ty = UndoOp.rowSplit))
        fresh with hm | hm <;>
      rw [hm] <;>
      (try simp only [undo_start_new_group]) <;>
      (repeat' split) <;>
      first
      | exact ⟨0, rfl⟩
      | exact ⟨_, rfl⟩
  · rcases undo_maybe_start_group_cases (undo_clear_redo s)
        (decide (ty = UndoOp.rowInsert ∨ ty = UndoOp.rowDelete ∨ ty = UndoOp.rowSplit))
        fresh with hm | hm <;>
      rw [hm] <;>
      (try simp only [undo_start_new_group]) <;>
      (repeat' split) <;>
      (refine ⟨?_, ?_⟩ <;> first | exact Nat.le_refl _ | exact Nat.le_succ _)
  · rcases undo_maybe_start_group_cases (undo_clear_redo s)
        (decide (ty = UndoOp.rowInsert ∨ ty = UndoOp.rowDelete ∨ ty = UndoOp.rowSplit))
        fresh with hm | hm <;>
      rw [hm] <;>
      (try simp only [undo_start_new_group]) <;>
      (repeat' split) <;>
      exact hrows

/-- **C6.** On a well-formed log (group ids monotone, none above the group
counter, redo position at most the counter), a mutating edit's `undo_log`
call first discards exactly the entries with group id above the redo
position (`undo_clear_redo` retains precisely the groups ≤ redo position —
when the redo position is not below the top this discards nothing), and
afterwards no entry's group id exceeds the new top group; group ids remain
monotonic within the log. -/
theorem undo_log_truncates_redo (s : EState) (fresh : Bool) (ty : UndoOp)
    (cr cc ri cp : Nat) (cd : Option Char)
    (hmono : s.ustack.Pairwise fun a b => a.group ≤ b.group)
    (hall : ∀ en ∈ s.ustack, en.group ≤ s.groupId)
    (hup : s.upos ≤ s.groupId) :
    (undo_clear_redo s).ustack = s.ustack.filter (fun en => en.group ≤ s.upos) ∧
    (∀ en ∈ (undo_log s fresh ty cr cc ri cp cd).ustack,
      en.group ≤ (undo_log s fresh ty cr cc ri cp cd).groupId) ∧
    ((undo_log s fresh ty cr cc ri cp cd).ustack.Pairwise
      fun a b => a.group ≤ b.group) := by
  obtain ⟨hfilter, hupos_c, hallc, hmonoc⟩ := undo_clear_redo_spec s hmono hall hup
  obtain ⟨s3, ⟨k, hk⟩, ⟨hg1, hg2⟩, hrows3, heq⟩ :=
    undo_log_decomp s fresh ty cr cc ri cp cd
  refine ⟨hfilter, ?_, ?_⟩
  · intro en hen
    rw [heq] at hen ⊢
    rcases List.mem_append.mp hen with h | h
    · have hmem : en ∈ (undo_clear_redo s).ustack := by
        rw [hk] at h
        exact List.drop_subset _ _ h
      have := hallc en hmem
      show en.group ≤ s3.groupId
      omega
    · simp only [List.mem_singleton] at h
      subst h
      exact Nat.le_refl _
  · rw [heq]
    refine List.pairwise_append.mpr ⟨?_, List.pairwise_singleton _ _, ?_⟩
    · rw [hk]
      exact hmonoc.sublist (List.drop_sublist _ _)
    · intro a ha b hb
      simp only [List.mem_singleton] at hb
      subst hb
      have hmem : a ∈ (undo_clear_redo s).ustack := by
        rw [hk] at ha
        exact List.drop_subset _ _ ha
      have := hallc a hmem
      show a.group ≤ s3.groupId
      omega

/-- Witness for C6: log with groups `[1, 2]`, group counter 2 and redo
position 1 (one group undone); logging a fresh edit discards the group-2
entry and the resulting log keeps all group ids at or below the new top. -/
theorem undo_log_truncates_redo_witness :
    (undo_clear_redo { mkState [['a']] 0 0 with
        ustack := [{ group := 1, op := .charInsert, cursorRow := 0, cursorCol := 0,
                     rowIdx := 0, charPos := 0, chData := some 'x', rowContent := none },
                   { group := 2, op := .charInsert, cursorRow := 0, cursorCol := 1,
                     rowIdx := 0, charPos := 1, chData := some 'y', rowContent := none }],
        ucapacity := 256, groupId := 2, upos := 1 }).ustack =
      [{ group := 1, op := .charInsert, cursorRow := 0, cursorCol := 0,
         rowIdx := 0, charPos := 0, chData := some 'x', rowContent := none }] := by
  have h := (undo_log_truncates_redo ({ mkState [['a']] 0 0 with
    ustack := [{ group := 1, op := .charInsert, cursorRow := 0, cursorCol := 0,
                 rowIdx := 0, charPos := 0, chData := some 'x', rowContent := none },
               { group := 2, op := .charInsert, cursorRow := 0, cursorCol := 1,
                 rowIdx := 0, charPos := 1, chData := some 'y', rowContent := none }],
    ucapacity := 256, groupId := 2, upos := 1 }) true .charInsert 0 0 0 0 (some 'z')
    (by decide) (by decide) (by decide)).1
  rw [h]
  decide

theorem undo_clear_redo_ucapacity (s : EState) :
    (undo_clear_redo s).ucapacity = s.ucapacity := by
  unfold undo_clear_redo
  split
  · rfl
  · split <;> rfl

theorem undo_clear_redo_stack_take (s : EState) :
    ∃ m, (undo_clear_redo s).ustack = s.ustack.take m := by
  unfold undo_clear_redo
  split
  · exact ⟨s.ustack.length, (List.take_length s.ustack).symm⟩
  · split
    · exact ⟨s.ustack.length, (List.take_length s.ustack).symm⟩
    · exact ⟨_, rfl⟩

theorem undo_clear_redo_id_of_quiescent (s : EState) (h : s.groupId ≤ s.upos) :
    undo_clear_redo s = s := by
  unfold undo_clear_redo
  rw [if_pos h]

/-- The housekeeping equation of `undo_log`: over the truncated stack, the
capacity is initialized to 256 on first use; then, when the entry count has
reached the capacity, either the oldest `capacity / 4` entries are dropped
(capacity at the `UNDO_MAX_ENTRIES` limit) or the capacity doubles; finally
the new entry is appended under the (possibly fresh) group id. -/
theorem undo_log_housekeeping (s : EState) (fresh : Bool) (ty : UndoOp)
    (cr cc ri cp : Nat) (cd : Option Char) :
    ∃ g rc,
      ((undo_clear_redo s).groupId ≤ g ∧ g ≤ (undo_clear_redo s).groupId + 1) ∧
      (fresh = true → g = (undo_clear_redo s).groupId + 1) ∧
      undo_log s fresh ty cr cc ri cp cd =
        (let sc := undo_clear_redo s
         let c1 := if sc.ucapacity = 0 then 256 else sc.ucapacity
         let stack2 :=
           if c1 ≤ sc.ustack.length ∧ UNDO_MAX_ENTRIES ≤ c1 then
             sc.ustack.drop (c1 / 4)
           else sc.ustack
         let c2 :=
           if c1 ≤ sc.ustack.length ∧ ¬ UNDO_MAX_ENTRIES ≤ c1 then c1 * 2 else c1
         { sc with
           ustack := stack2 ++
             [{ group := g, op := ty, cursorRow := cr, cursorCol := cc,
                rowIdx := ri, charPos := cp, chData := cd, rowContent := rc }],
           ucapacity := c2, groupId := g, upos := g }) := by
  rcases undo_maybe_start_group_cases (undo_clear_redo s)
      (decide (ty = UndoOp.rowInsert) ||
        (decide (ty = UndoOp.rowDelete) || decide (ty = UndoOp.rowSplit)))
      fresh with hm | hm
  · refine ⟨(undo_clear_redo s).groupId + 1,
      if ty = .rowDelete ∨ ty = .rowInsert then (undo_clear_redo s).rows[ri]? else none,
      ⟨Nat.le_succ _, Nat.le_refl _⟩, fun _ => rfl, ?_⟩
    by_cases hcap0 : (undo_clear_redo s).ucapacity = 0
    · by_cases hfull : 256 ≤ (undo_clear_redo s).ustack.length
      · simp [undo_log, hm, undo_start_new_group, hcap0, hfull, UNDO_MAX_ENTRIES]
      · simp [undo_log, hm, undo_start_new_group, hcap0, hfull, UNDO_MAX_ENTRIES]
    · by_cases hfull : (undo_clear_redo s).ucapacity ≤ (undo_clear_redo s).ustack.length
      · by_cases hmax : UNDO_MAX_ENTRIES ≤ (undo_clear_redo s).ucapacity
        · simp [undo_log, hm, undo_start_new_group, hcap0, hfull, hmax]
        · simp [undo_log, hm, undo_start_new_group, hcap0, hfull, hmax]
      · simp [undo_log, hm, undo_start_new_group, hcap0, hfull]
  · refine ⟨(undo_clear_redo s).groupId,
      if ty = .rowDelete ∨ ty = .rowInsert then (undo_clear_redo s).rows[ri]? else none,
      ⟨Nat.le_refl _, Nat.le_succ _⟩, ?_, ?_⟩
    · intro hf
      subst hf
      exfalso
      have hstart : undo_maybe_start_group (undo_clear_redo s)
          (decide (ty = UndoOp.rowInsert) ||
            (decide (ty = UndoOp.rowDelete) || decide (ty = UndoOp.rowSplit))) true =
          undo_start_new_group (undo_clear_redo s) := by
        unfold undo_maybe_start_group
        split
        · rfl
        · rw [if_pos (Or.inl rfl)]
      rw [hstart] at hm
      have := congrArg EState.groupId hm
      simp only [undo_start_new_group] at this
      omega
    by_cases hcap0 : (undo_clear_redo s).ucapacity = 0
    · by_cases hfull : 256 ≤ (undo_clear_redo s).ustack.length
      · simp [undo_log, hm, hcap0, hfull, UNDO_MAX_ENTRIES]
      · simp [undo_log, hm, hcap0, hfull, UNDO_MAX_ENTRIES]
    · by_cases hfull : (undo_clear_redo s).ucapacity ≤ (undo_clear_redo s).ustack.length
      · by_cases hmax : UNDO_MAX_ENTRIES ≤ (undo_clear_redo s).ucapacity
        · simp [undo_log, hm, hcap0, hfull, hmax]
        · simp [undo_log, hm, hcap0, hfull, hmax]
      · simp [undo_log, hm, hcap0, hfull]

theorem capWF_length_le (t : EState) (h : capWF t) : t.ustack.length ≤ 16384 := by
  rcases h with ⟨_, hst⟩ | ⟨k, hk, hcap, hlen⟩
  · rw [hst]
    simp
  · calc t.ustack.length ≤ t.ucapacity := hlen
      _ = 256 * 2 ^ k := hcap
      _ ≤ 256 * 2 ^ 6 := by
          have := Nat.pow_le_pow_right (show 0 < 2 by norm_num) hk
          omega
      _ ≤ 16384 := by norm_num

theorem drop_replicate_eq {α : Type _} (a : α) :
    ∀ n k, (List.replicate n a).drop k = List.replicate (n - k) a
  | _, 0 => by simp
  | 0, _ + 1 => by simp
  | n + 1, k + 1 => by
    rw [List.replicate_succ, List.drop_succ_cons, drop_replicate_eq a n k,
      Nat.succ_sub_succ]

theorem countP_replicate_eq {α : Type _} (p : α → Bool) (a : α) :
    ∀ n, (List.replicate n a).countP p = if p a then n else 0
  | 0 => by simp
  | n + 1 => by
    rw [List.replicate_succ, List.countP_cons, countP_replicate_eq p a n]
    cases hpa : p a <;> simp [hpa]

/-- **C5, counterexample.** A full log of 16384 entries all belonging to
group 1 (capacity 16384, the first power-of-two capacity at or above
`UNDO_MAX_ENTRIES`): logging one more entry removes the oldest
`16384 / 4 = 4096` entries, all of group 1, while keeping the other 12288 —
the trimming splits group 1, contradicting "a group's entries are either all
kept or all removed" (and the log holds 16384 > 10000 entries just before
the trim). -/
theorem undo_log_trim_splits_group :
    ({ mkState [] 0 0 with
        ustack := List.replicate 16384
          { group := 1, op := .charInsert, cursorRow := 0, cursorCol := 0,
            rowIdx := 0, charPos := 0, chData := some 'x', rowContent := none },
        ucapacity := 16384, groupId := 1, upos := 1 } : EState).ustack.countP
      (fun en => decide (en.group = 1)) = 16384 ∧
    (undo_log { mkState [] 0 0 with
        ustack := List.replicate 16384
          { group := 1, op := .charInsert, cursorRow := 0, cursorCol := 0,
            rowIdx := 0, charPos := 0, chData := some 'x', rowContent := none },
        ucapacity := 16384, groupId := 1, upos := 1 } true .charInsert 0 0 0 0
      (some 'x')).ustack.countP (fun en => decide (en.group = 1)) = 12288 := by
  constructor
  · rw [countP_replicate_eq]
    simp
  · obtain ⟨g, rc, ⟨hg1, hg2⟩, hfresh, heq⟩ := undo_log_housekeeping
      ({ mkState [] 0 0 with
        ustack := List.replicate 16384
          { group := 1, op := .charInsert, cursorRow := 0, cursorCol := 0,
            rowIdx := 0, charPos := 0, chData := some 'x', rowContent := none },
        ucapacity := 16384, groupId := 1, upos := 1 } : EState)
      true .charInsert 0 0 0 0 (some 'x')
    have hid : undo_clear_redo ({ mkState [] 0 0 with
        ustack := List.replicate 16384
          { group := 1, op := .charInsert, cursorRow := 0, cursorCol := 0,
            rowIdx := 0, charPos := 0, chData := some 'x', rowContent := none },
        ucapacity := 16384, groupId := 1, upos := 1 } : EState) =
        { mkState [] 0 0 with
          ustack := List.replicate 16384
            { group := 1, op := .charInsert, cursorRow := 0, cursorCol := 0,
              rowIdx := 0, charPos := 0, chData := some 'x', rowContent := none },
          ucapacity := 16384, groupId := 1, upos := 1 } :=
      undo_clear_redo_id_of_quiescent _ (Nat.le_refl 1)
    have hg : g = 2 := by
      have h1 := hfresh rfl
      rw [hid] at h1
      exact h1
    subst hg
    rw [heq]
    simp only [mkState] at hid ⊢
    simp only [hid, List.length_replicate, UNDO_MAX_ENTRIES]
    norm_num
    rw [countP_replicate_eq]
    simp

/-- **C5.** (Amended.)  Under the capacity discipline (capacity doubling
from 256, so the first capacity at or above `UNDO_MAX_ENTRIES = 10000` is
16384), the undo log is bounded: it never exceeds 16384 entries.  When an
entry is logged with no redo pending while the entry count has reached a
capacity at the hard limit, the oldest `capacity / 4` entries are removed —
a plain prefix drop that pays no attention to group boundaries (so a group
spanning the cut is split, as the counterexample shows) — and the new entry
is appended. -/
theorem undo_log_bounded_and_quarter_trim (s : EState) (fresh : Bool)
    (ty : UndoOp) (cr cc ri cp : Nat) (cd : Option Char) (hwf : capWF s) :
    capWF (undo_log s fresh ty cr cc ri cp cd) ∧
    (undo_log s fresh ty cr cc ri cp cd).ustack.length ≤ 16384 ∧
    (s.upos = s.groupId → UNDO_MAX_ENTRIES ≤ s.ucapacity →
      s.ucapacity ≤ s.ustack.length →
      ∃ en, (undo_log s fresh ty cr cc ri cp cd).ustack =
        s.ustack.drop (s.ucapacity / 4) ++ [en]) := by
  obtain ⟨g, rc, hgb, hgf, heq⟩ := undo_log_housekeeping s fresh ty cr cc ri cp cd
  have hscc := undo_clear_redo_ucapacity s
  obtain ⟨m, hsct⟩ := undo_clear_redo_stack_take s
  have hscl : (undo_clear_redo s).ustack.length ≤ s.ustack.length := by
    rw [hsct, List.length_take]
    omega
  have hmain : capWF (undo_log s fresh ty cr cc ri cp cd) := by
    rcases hwf with ⟨hc0, hst0⟩ | ⟨k, hk6, hck, hlk⟩
    · have h1 : (undo_clear_redo s).ucapacity = 0 := by rw [hscc, hc0]
      have h2 : (undo_clear_redo s).ustack = [] := by
        rw [hsct, hst0, List.take_nil]
      rw [heq]
      refine Or.inr ⟨0, by norm_num, ?_, ?_⟩ <;>
        simp [h1, h2, UNDO_MAX_ENTRIES]
    · have h1 : (undo_clear_redo s).ucapacity = 256 * 2 ^ k := by rw [hscc, hck]
      have hpos : 0 < 256 * 2 ^ k := by positivity
      have hne : ¬ (undo_clear_redo s).ucapacity = 0 := by
        rw [h1]
        omega
      have hlen_c : (undo_clear_redo s).ustack.length ≤ 256 * 2 ^ k :=
        le_trans hscl (hck ▸ hlk)
      by_cases hfull : (undo_clear_redo s).ucapacity ≤ (undo_clear_redo s).ustack.length
      · by_cases hmax : UNDO_MAX_ENTRIES ≤ (undo_clear_redo s).ucapacity
        · have hc2 : ¬((undo_clear_redo s).ucapacity ≤ (undo_clear_redo s).ustack.length ∧
              ¬ UNDO_MAX_ENTRIES ≤ (undo_clear_redo s).ucapacity) := fun h => h.2 hmax
          have hk6' : k = 6 := by
            rw [h1] at hmax
            simp only [UNDO_MAX_ENTRIES] at hmax
            interval_cases k <;> omega
          subst hk6'
          have hval : (256 : Nat) * 2 ^ 6 = 16384 := by norm_num
          rw [heq]
          refine Or.inr ⟨6, Nat.le_refl 6, ?_, ?_⟩ <;>
            simp only [if_neg hne, if_pos (And.intro hfull hmax), if_neg hc2]
          · exact h1
          · rw [List.length_append, List.length_drop]
            simp only [List.length_cons, List.length_nil]
            rw [hval] at h1 hlen_c
            omega
        · have hcm : ¬((undo_clear_redo s).ucapacity ≤ (undo_clear_redo s).ustack.length ∧
              UNDO_MAX_ENTRIES ≤ (undo_clear_redo s).ucapacity) := fun h => hmax h.2
          rw [heq]
          refine Or.inr ⟨k + 1, ?_, ?_, ?_⟩
          · have hk5 : k ≤ 5 := by
              by_contra hlt
              have hk6' : k = 6 := by omega
              subst hk6'
              apply hmax
              rw [h1]
              norm_num [UNDO_MAX_ENTRIES]
            omega
          · simp only [if_neg hne, if_neg hcm, if_pos (And.intro hfull hmax)]
            rw [h1, Nat.pow_succ]
            ring
          · simp only [if_neg hne, if_neg hcm, if_pos (And.intro hfull hmax)]
            rw [List.length_append, h1]
            simp only [List.length_cons, List.length_nil]
            omega
      · have hcm1 : ¬((undo_clear_redo s).ucapacity ≤ (undo_clear_redo s).ustack.length ∧
            UNDO_MAX_ENTRIES ≤ (undo_clear_redo s).ucapacity) := fun h => hfull h.1
        have hcm2 : ¬((undo_clear_redo s).ucapacity ≤ (undo_clear_redo s).ustack.length ∧
            ¬ UNDO_MAX_ENTRIES ≤ (undo_clear_redo s).ucapacity) := fun h => hfull h.1
        rw [heq]
        refine Or.inr ⟨k, hk6, ?_, ?_⟩ <;>
          simp only [if_neg hne, if_neg hcm1, if_neg hcm2]
        · exact h1
        · rw [List.length_append, h1]
          simp only [List.length_cons, List.length_nil]
          omega
  refine ⟨hmain, capWF_length_le _ hmain, ?_⟩
  intro hq hmax hfull
  have hid : undo_clear_redo s = s := undo_clear_redo_id_of_quiescent s (le_of_eq hq.symm)
  have hne' : ¬ s.ucapacity = 0 := by
    simp only [UNDO_MAX_ENTRIES] at hmax
    omega
  have hc2 : ¬(s.ucapacity ≤ s.ustack.length ∧ ¬ UNDO_MAX_ENTRIES ≤ s.ucapacity) :=
    fun h => h.2 hmax
  refine ⟨⟨g, ty, cr, cc, ri, cp, cd, rc⟩, ?_⟩
  rw [heq]
  simp only [hid, if_neg hne', if_pos (And.intro hfull hmax), if_neg hc2]

/-- Witness for C5: logging into a fresh empty log satisfies the capacity
discipline and the 16384-entry bound. -/
theorem undo_log_bounded_and_quarter_trim_witness :
    capWF (undo_log (mkState [['a']] 0 0) true .charInsert 0 0 0 0 (some 'x')) ∧
    (undo_log (mkState [['a']] 0 0) true .charInsert 0 0 0 0
      (some 'x')).ustack.length ≤ 16384 :=
  ⟨(undo_log_bounded_and_quarter_trim (mkState [['a']] 0 0) true .charInsert
      0 0 0 0 (some 'x') (Or.inl ⟨rfl, rfl⟩)).1,
   (undo_log_bounded_and_quarter_trim (mkState [['a']] 0 0) true .charInsert
      0 0 0 0 (some 'x') (Or.inl ⟨rfl, rfl⟩)).2.1⟩

/-! ## C1: multi-cursor insertion with column rebasing -/

theorem cursorLE_total (a b : CursorPos) : (cursorLE a b || cursorLE b a) = true := by
  cases a with
  | mk al ac =>
    cases b with
    | mk bl bc =>
      simp only [cursorLE, Bool.or_eq_true, decide_eq_true_eq]
      omega

theorem cursorLE_trans (a b c : CursorPos) (h₁ : cursorLE a b = true)
    (h₂ : cursorLE b c = true) : cursorLE a c = true := by
  cases a with
  | mk al ac =>
    cases b with
    | mk bl bc =>
      cases c with
      | mk cl cc =>
        simp only [cursorLE, decide_eq_true_eq] at h₁ h₂ ⊢
        omega

theorem cursorLE_antisymm (a b : CursorPos) (h₁ : cursorLE a b = true)
    (h₂ : cursorLE b a = true) : a = b := by
  cases a with
  | mk al ac =>
    cases b with
    | mk bl bc =>
      simp only [cursorLE, decide_eq_true_eq] at h₁ h₂
      have h : al = bl ∧ ac = bc := by omega
      simp [h.1, h.2]

/-- A merge sort by an antisymmetric total transitive boolean order returns
the unique sorted rearrangement of its input. -/
theorem mergeSort_eq_of_sorted_of_perm {α : Type _} (le : α → α → Bool)
    (htrans : ∀ a b c, le a b = true → le b c = true → le a c = true)
    (htot : ∀ a b, (le a b || le b a) = true)
    (hanti : ∀ a b, le a b = true → le b a = true → a = b)
    (l tgt : List α) (hperm : l.Perm tgt)
    (hsort : tgt.Pairwise fun a b => le a b = true) :
    l.mergeSort le = tgt := by
  haveI : IsAntisymm α (fun a b => le a b = true) := ⟨hanti⟩
  exact List.eq_of_perm_of_sorted ((List.mergeSort_perm l le).trans hperm)
    (List.sorted_mergeSort htrans htot l) hsort

/-- `find?` returns the designated element when it is the only one matching
the predicate. -/
theorem find_first_unique {α : Type _} (p : α → Bool) (a : α) :
    ∀ l : List α, a ∈ l → p a = true → (∀ x ∈ l, p x = true → x = a) →
      l.find? p = some a := by
  intro l
  induction l with
  | nil => intro h _ _; exact absurd h (List.not_mem_nil a)
  | cons b t ih =>
    intro hmem hpa huniq
    by_cases hb : p b = true
    · rw [List.find?_cons_of_pos _ hb, huniq b (List.mem_cons_self b t) hb]
    · rw [List.find?_cons_of_neg _ hb]
      have hat : a ∈ t := by
        rcases List.mem_cons.mp hmem with h | h
        · exact absurd (h ▸ hpa) hb
        · exact h
      exact ih hat hpa fun x hx hpx => huniq x (List.mem_cons_of_mem _ hx) hpx

theorem getD_set_ne {α : Type _} (l : List α) {i j : Nat} (h : i ≠ j) (v d : α) :
    (l.set i v).getD j d = l.getD j d := by
  simp [List.getD_eq_getElem?_getD, List.getElem?_set_ne h]

theorem undo_log_view (s : EState) (fresh : Bool) (ty : UndoOp)
    (cr cc ri cp : Nat) (cd : Option Char) :
    (undo_log s fresh ty cr cc ri cp cd).rows = s.rows ∧
      (undo_log s fresh ty cr cc ri cp cd).cy = s.cy ∧
      (undo_log s fresh ty cr cc ri cp cd).cx = s.cx ∧
      (undo_log s fresh ty cr cc ri cp cd).cursors = s.cursors := by
  unfold undo_log undo_clear_redo undo_maybe_start_group undo_start_new_group
  dsimp only
  repeat' split
  all_goals exact ⟨rfl, rfl, rfl, rfl⟩

theorem editor_insert_char_at_view (s : EState) (line col : Nat) (c : Char)
    (h : line < s.rows.length) :
    editor_insert_char_at s line col c =
      { s with rows :=
          s.rows.set line (editor_row_insert_char (s.rows.getD line []) col c) } := by
  unfold editor_insert_char_at
  rw [if_neg (by omega : ¬ s.rows.length < line), if_neg (by omega : ¬ line = s.rows.length)]

theorem rowsInsertFold_length (c : Char) :
    ∀ (ps : List CursorPos) (rows : List (List Char)),
      (rowsInsertFold rows ps c).length = rows.length := by
  intro ps
  induction ps with
  | nil => intro rows; rfl
  | cons p t ih =>
    intro rows
    show (rowsInsertFold (rows.set p.line _) t c).length = rows.length
    rw [ih, List.length_set]

/-- Localization of the insertion fold: a given row of the result depends
only on that row and the cursors sitting on it, in fold order. -/
theorem rowsInsertFold_getD (c : Char) :
    ∀ (ps : List CursorPos) (rows : List (List Char)) (i : Nat),
      (∀ p ∈ ps, p.line < rows.length) → i < rows.length →
      (rowsInsertFold rows ps c).getD i [] =
        insertAtCols (rows.getD i [])
          ((ps.filter fun p => p.line == i).map (·.column)) c := by
  intro ps
  induction ps with
  | nil => intro rows i _ _; rfl
  | cons p t ih =>
    intro rows i hb hi
    have hp : p.line < rows.length := hb p (List.mem_cons_self p t)
    have hb' : ∀ q ∈ t, q.line < (rows.set p.line
        (editor_row_insert_char (rows.getD p.line []) p.column c)).length := by
      intro q hq
      rw [List.length_set]
      exact hb q (List.mem_cons_of_mem _ hq)
    have hi' : i < (rows.set p.line
        (editor_row_insert_char (rows.getD p.line []) p.column c)).length := by
      rw [List.length_set]; exact hi
    show (rowsInsertFold (rows.set p.line _) t c).getD i [] = _
    rw [ih _ i hb' hi']
    by_cases hline : p.line = i
    · subst hline
      rw [getD_set_self _ _ _ _ hp]
      rw [List.filter_cons_of_pos (by simp)]
      rfl
    · rw [getD_set_ne _ hline]
      rw [List.filter_cons_of_neg (by simp [hline])]

/-- In a list sorted end-of-file-first, the columns of the cursors on one
line appear in decreasing order. -/
theorem pairwise_cols_desc :
    ∀ (l : List CursorPos) (i : Nat),
      l.Pairwise (fun a b => cursorLE b a = true) →
      ((l.filter fun p => p.line == i).map (·.column)).Pairwise
        (fun a b : Nat => decide (b ≤ a) = true) := by
  intro l
  induction l with
  | nil => intro i _; exact List.Pairwise.nil
  | cons p t ih =>
    intro i hp
    rcases List.pairwise_cons.mp hp with ⟨hhead, htail⟩
    by_cases hline : (p.line == i) = true
    · rw [List.filter_cons, if_pos hline, List.map_cons]
      refine List.pairwise_cons.mpr ⟨?_, ih i htail⟩
      intro col hcol
      rcases List.mem_map.mp hcol with ⟨q, hqmem, hqcol⟩
      have hq : q ∈ t := List.mem_of_mem_filter hqmem
      have hqline : (q.line == i) = true :=
        @List.of_mem_filter _ (fun r => r.line == i) q t hqmem
      have hle := hhead q hq
      simp only [cursorLE, decide_eq_true_eq] at hle ⊢
      have h1 : p.line = i := by simpa using hline
      have h2 : q.line = i := by simpa using hqline
      subst hqcol
      omega
    · rw [List.filter_cons, if_neg hline]
      exact ih i htail

theorem mcInsertStep_view (c : Char) (fresh : Bool) (st : EState)
    (p : Nat × CursorPos) (h : p.2.line < st.rows.length) :
    (mcInsertStep c fresh st p).rows =
        st.rows.set p.2.line
          (editor_row_insert_char (st.rows.getD p.2.line []) p.2.column c) ∧
      (mcInsertStep c fresh st p).cy = st.cy ∧
      (mcInsertStep c fresh st p).cx = st.cx ∧
      (mcInsertStep c fresh st p).cursors = st.cursors := by
  obtain ⟨hr, hy, hx, hc⟩ := undo_log_view st (fresh && p.1 == 0) .charInsert
    p.2.line p.2.column p.2.line p.2.column (some c)
  unfold mcInsertStep
  rw [editor_insert_char_at_view _ _ _ _ (by rw [hr]; exact h)]
  refine ⟨?_, hy, hx, hc⟩
  show (undo_log st (fresh && p.1 == 0) .charInsert p.2.line p.2.column p.2.line
      p.2.column (some c)).rows.set p.2.line _ = _
  rw [hr]

/-- The per-cursor insertion loop of `multicursor_insert_char` acts on the
row store as `rowsInsertFold` over the snapshot positions and leaves the
cursor fields alone. -/
theorem mcFold_view (c : Char) (fresh : Bool) :
    ∀ (l : List (Nat × CursorPos)) (t : EState),
      (∀ p ∈ l, p.2.line < t.rows.length) →
      (l.foldl (mcInsertStep c fresh) t).rows =
          rowsInsertFold t.rows (l.map (·.2)) c ∧
        (l.foldl (mcInsertStep c fresh) t).cy = t.cy ∧
        (l.foldl (mcInsertStep c fresh) t).cx = t.cx ∧
        (l.foldl (mcInsertStep c fresh) t).cursors = t.cursors := by
  intro l
  induction l with
  | nil => intro t _; exact ⟨rfl, rfl, rfl, rfl⟩
  | cons p rest ih =>
    intro t hb
    have hp : p.2.line < t.rows.length := hb p (List.mem_cons_self p rest)
    obtain ⟨hr, hy, hx, hc⟩ := mcInsertStep_view c fresh t p hp
    have hb' : ∀ q ∈ rest, q.2.line < (mcInsertStep c fresh t p).rows.length := by
      intro q hq
      rw [hr, List.length_set]
      exact hb q (List.mem_cons_of_mem _ hq)
    obtain ⟨ir, iy, ix, ic⟩ := ih (mcInsertStep c fresh t p) hb'
    rw [List.foldl_cons]
    refine ⟨?_, ?_, ?_, ?_⟩
    · rw [ir, hr]; rfl
    · rw [iy, hy]
    · rw [ix, hx]
    · rw [ic, hc]

/-- The Kilo rebasing is injective: cursors at distinct positions are moved
to distinct positions (on one line the strictly larger column gains at least
as large a count). -/
theorem rebase_column_inj (l : List CursorPos) (x y : CursorPos)
    (h : rebase_column l x = rebase_column l y) : x = y := by
  have hline : x.line = y.line := by
    have h2 := congrArg CursorPos.line h
    exact h2
  have hcol :
      x.column + l.countP (fun p => decide (p.line = x.line ∧ p.column ≤ x.column)) =
        y.column + l.countP (fun p => decide (p.line = y.line ∧ p.column ≤ y.column)) := by
    have h2 := congrArg CursorPos.column h
    exact h2
  rcases Nat.lt_trichotomy x.column y.column with hlt | heq | hgt
  · exfalso
    have hmono :
        l.countP (fun p => decide (p.line = x.line ∧ p.column ≤ x.column)) ≤
          l.countP (fun p => decide (p.line = y.line ∧ p.column ≤ y.column)) := by
      apply List.countP_mono_left
      intro q _ hq
      simp only [decide_eq_true_eq] at hq ⊢
      exact ⟨hline ▸ hq.1, hq.2.trans (Nat.le_of_lt hlt)⟩
    omega
  · cases x with
    | mk xl xc =>
      cases y with
      | mk yl yc =>
        simp only at hline heq
        simp [hline, heq]
  · exfalso
    have hmono :
        l.countP (fun p => decide (p.line = y.line ∧ p.column ≤ y.column)) ≤
          l.countP (fun p => decide (p.line = x.line ∧ p.column ≤ x.column)) := by
      apply List.countP_mono_left
      intro q _ hq
      simp only [decide_eq_true_eq] at hq ⊢
      exact ⟨hline ▸ hq.1, hq.2.trans (Nat.le_of_lt hgt)⟩
    omega

theorem dropPrimaryOverlap_id (prim : CursorPos) (allow : Bool) :
    ∀ (l : List CursorPos) (kept : Bool), (∀ x ∈ l, x ≠ prim) →
      dropPrimaryOverlap prim allow l kept = l := by
  intro l
  induction l with
  | nil => intro kept _; rfl
  | cons c t ih =>
    intro kept h
    unfold dropPrimaryOverlap
    rw [if_neg (h c (List.mem_cons_self c t))]
    rw [ih kept fun x hx => h x (List.mem_cons_of_mem _ hx)]

theorem collapseAdjacent_id :
    ∀ (l : List CursorPos) (prev : CursorPos), prev ∉ l → l.Nodup →
      collapseAdjacent prev l = l := by
  intro l
  induction l with
  | nil => intro prev _ _; rfl
  | cons c t ih =>
    intro prev hprev hnd
    unfold collapseAdjacent
    rw [if_neg fun h => hprev (by rw [← h]; exact List.mem_cons_self c t)]
    rcases List.nodup_cons.mp hnd with ⟨hc, ht⟩
    rw [ih c hc ht]

/-- On a duplicate-free cursor set whose primary coincides with no
secondary, `multicursor_remove_duplicates` only sorts the secondaries into
document order (and keeps a single secondary untouched). -/
theorem multicursor_remove_duplicates_view (t : EState)
    (hnd : t.cursors.Nodup) (hprim : (⟨t.cy, t.cx⟩ : CursorPos) ∉ t.cursors)
    (hne : t.cursors ≠ []) :
    multicursor_remove_duplicates t =
      { t with cursors :=
          if t.cursors.length ≤ 1 then t.cursors
          else t.cursors.mergeSort cursorLE } := by
  unfold multicursor_remove_duplicates
  rw [if_neg hne]
  have hkept :
      dropPrimaryOverlap ⟨t.cy, t.cx⟩ t.allowOverlap t.cursors false = t.cursors :=
    dropPrimaryOverlap_id _ _ _ _ fun x hx h => hprim (h ▸ hx)
  rw [hkept]
  by_cases hlen : t.cursors.length ≤ 1
  · rw [if_pos hlen, if_pos hlen]
  · rw [if_neg hlen, if_neg hlen]
    have hperm := List.mergeSort_perm t.cursors cursorLE
    have hndms : (t.cursors.mergeSort cursorLE).Nodup := hperm.symm.nodup hnd
    rcases hms : t.cursors.mergeSort cursorLE with _ | ⟨c0, rest⟩
    · rfl
    · rw [hms] at hndms
      rcases List.nodup_cons.mp hndms with ⟨hc0, hrest⟩
      dsimp only
      rw [collapseAdjacent_id rest c0 hc0 hrest]

theorem collect_rev_perm (s : EState) :
    (multicursor_collect_all_rev s).Perm (allCursors s) :=
  List.mergeSort_perm (allCursors s) fun a b => cursorLE b a

theorem collect_rev_sorted (s : EState) :
    (multicursor_collect_all_rev s).Pairwise fun a b => cursorLE b a = true :=
  List.sorted_mergeSort (fun a b c h₁ h₂ => cursorLE_trans c b a h₂ h₁)
    (fun a b => cursorLE_total b a) (allCursors s)

/-- The per-line column subsequence of the end-of-file-first snapshot is
exactly `colsOnLine` of the cursor set. -/
theorem colsOnLine_collect (s : EState) (i : Nat) :
    ((multicursor_collect_all_rev s).filter fun p => p.line == i).map (·.column) =
      colsOnLine (allCursors s) i := by
  unfold colsOnLine
  symm
  apply mergeSort_eq_of_sorted_of_perm
  · intro a b c h₁ h₂
    simp only [decide_eq_true_eq] at h₁ h₂ ⊢
    omega
  · intro a b
    simp only [Bool.or_eq_true, decide_eq_true_eq]
    omega
  · intro a b h₁ h₂
    simp only [decide_eq_true_eq] at h₁ h₂
    omega
  · exact List.Perm.map _ (List.Perm.filter _ (collect_rev_perm s).symm)
  · exact pairwise_cols_desc (multicursor_collect_all_rev s) i (collect_rev_sorted s)

/-- Looking an original position up in the zipped rebasing table yields the
pair of the position and its rebased image. -/
theorem pairs_find_eval (orig : List CursorPos) (cur : CursorPos)
    (hmem : cur ∈ orig) :
    (orig.zip (orig.map (rebase_column orig))).find?
        (fun p => p.1.line == cur.line && p.1.column == cur.column) =
      some (cur, rebase_column orig cur) := by
  have hz := List.zip_map' id (rebase_column orig) orig
  rw [List.map_id] at hz
  rw [hz, List.find?_map]
  have hcomp :
      ((fun p : CursorPos × CursorPos =>
          p.1.line == cur.line && p.1.column == cur.column) ∘
        fun a => (id a, rebase_column orig a)) =
      fun a : CursorPos => a.line == cur.line && a.column == cur.column := rfl
  rw [hcomp]
  have hfind := find_first_unique
    (fun a : CursorPos => a.line == cur.line && a.column == cur.column) cur orig
    hmem (by simp)
    (fun x hx hpx => by
      simp only [Bool.and_eq_true, beq_iff_eq] at hpx
      cases x with
      | mk xl xc =>
        cases cur with
        | mk cl cc => simp_all)
  rw [hfind]
  rfl

theorem rebase_column_congr (l m : List CursorPos) (h : l.Perm m) (o : CursorPos) :
    rebase_column l o = rebase_column m o := by
  unfold rebase_column
  rw [List.Perm.countP_eq _ h]

/-- The restoration scan moves every original position to its rebased
image. -/
theorem mcRestore_eval (orig : List CursorPos) (cur : CursorPos)
    (hmem : cur ∈ orig) :
    mcRestore (orig.zip (orig.map (rebase_column orig))) cur =
      rebase_column orig cur := by
  unfold mcRestore
  rw [pairs_find_eval orig cur hmem]
  rfl

/-- Characterization of `multicursor_insert_char` off the closing-brace path
on an in-bounds duplicate-free cursor set: the rows receive one insertion per
snapshot position (processed end-of-file-first), the primary and every
secondary move to their rebased positions, and the final deduplication pass
only sorts the secondaries into document order. -/
theorem multicursor_insert_char_view (s : EState) (c : Char) (fresh : Bool)
    (hne : s.cursors ≠ []) (hbr : c ≠ '}')
    (hnd : (allCursors s).Nodup)
    (hlines : ∀ p ∈ allCursors s, p.line < s.rows.length) :
    (multicursor_insert_char s c fresh).rows =
        rowsInsertFold s.rows (multicursor_collect_all_rev s) c ∧
      (multicursor_insert_char s c fresh).cy = s.cy ∧
      (multicursor_insert_char s c fresh).cx =
        s.cx + countColLE (allCursors s) ⟨s.cy, s.cx⟩ ∧
      (multicursor_insert_char s c fresh).cursors =
        (if s.cursors.length ≤ 1 then
          s.cursors.map (rebase_column (allCursors s))
        else (s.cursors.map (rebase_column (allCursors s))).mergeSort cursorLE) := by
  have hprim_nmem : (⟨s.cy, s.cx⟩ : CursorPos) ∉ s.cursors :=
    (List.nodup_cons.mp hnd).1
  have hsec_nd : s.cursors.Nodup := (List.nodup_cons.mp hnd).2
  have hmemo : ∀ q ∈ allCursors s, q ∈ multicursor_collect_all_rev s :=
    fun q hq => ((collect_rev_perm s).mem_iff).mpr hq
  have hlineso : ∀ p ∈ multicursor_collect_all_rev s, p.line < s.rows.length :=
    fun p hp => hlines p (((collect_rev_perm s).mem_iff).mp hp)
  have hb1 : ∀ p ∈ (multicursor_collect_all_rev s).enum,
      p.2.line < (undo_start_new_group s).rows.length := by
    intro p hp
    have h2 : p.2 ∈ (multicursor_collect_all_rev s).enum.map Prod.snd :=
      List.mem_map_of_mem Prod.snd hp
    rw [List.enum_map_snd] at h2
    exact hlineso p.2 h2
  obtain ⟨fr, fy, fx, fc⟩ := mcFold_view c fresh (multicursor_collect_all_rev s).enum
    (undo_start_new_group s) hb1
  have fr' : ((multicursor_collect_all_rev s).enum.foldl (mcInsertStep c fresh)
        (undo_start_new_group s)).rows =
      rowsInsertFold s.rows (multicursor_collect_all_rev s) c := by
    rw [fr, List.enum_map_snd]
    rfl
  have fy' : ((multicursor_collect_all_rev s).enum.foldl (mcInsertStep c fresh)
      (undo_start_new_group s)).cy = s.cy := fy
  have fx' : ((multicursor_collect_all_rev s).enum.foldl (mcInsertStep c fresh)
      (undo_start_new_group s)).cx = s.cx := fx
  have fc' : ((multicursor_collect_all_rev s).enum.foldl (mcInsertStep c fresh)
      (undo_start_new_group s)).cursors = s.cursors := fc
  have hmap : s.cursors.map
        (mcRestore ((multicursor_collect_all_rev s).zip
          ((multicursor_collect_all_rev s).map
            (rebase_column (multicursor_collect_all_rev s))))) =
      s.cursors.map (rebase_column (allCursors s)) := by
    apply List.map_congr_left
    intro cur hcur
    rw [mcRestore_eval _ cur (hmemo _ (List.mem_cons_of_mem _ hcur))]
    exact rebase_column_congr _ _ (collect_rev_perm s) cur
  unfold multicursor_insert_char
  rw [if_neg hne]
  dsimp only
  rw [if_neg hbr, fy', fx', fc', fr']
  rw [mcRestore_eval _ ⟨s.cy, s.cx⟩ (hmemo _ (List.mem_cons_self _ _))]
  rw [hmap]
  rw [multicursor_remove_duplicates_view _
    (by
      show (s.cursors.map (rebase_column (allCursors s))).Nodup
      exact List.Nodup.map_on
        (fun x _ y _ hxy => rebase_column_inj _ x y hxy) hsec_nd)
    (by
      show rebase_column (multicursor_collect_all_rev s) ⟨s.cy, s.cx⟩ ∉
        s.cursors.map (rebase_column (allCursors s))
      intro hmem2
      rcases List.mem_map.mp hmem2 with ⟨cur, hcur, heq⟩
      rw [rebase_column_congr _ _ (collect_rev_perm s)] at heq
      have hcp : cur = ⟨s.cy, s.cx⟩ := rebase_column_inj _ _ _ heq
      exact hprim_nmem (hcp ▸ hcur))
    (by
      show s.cursors.map (rebase_column (allCursors s)) ≠ []
      intro h
      exact hne (List.map_eq_nil_iff.mp h))]
  refine ⟨rfl, rfl, ?_, ?_⟩
  · show (rebase_column (multicursor_collect_all_rev s) ⟨s.cy, s.cx⟩).column = _
    rw [rebase_column_congr _ _ (collect_rev_perm s)]
    rfl
  · show (if (s.cursors.map (rebase_column (allCursors s))).length ≤ 1 then _
        else _) = _
    rw [List.length_map]

/-- Evaluation of the worked example: inserting `'x'` at the three cursors
of `exMulti` produces exactly `exMultiAfter`. -/
theorem exMulti_eval :
    multicursor_insert_char exMulti 'x' true = exMultiAfter := by
  have horig : multicursor_collect_all_rev exMulti = [⟨2, 0⟩, ⟨1, 0⟩, ⟨0, 0⟩] :=
    mergeSort_eq_of_sorted_of_perm _
      (fun a b c h₁ h₂ => cursorLE_trans c b a h₂ h₁)
      (fun a b => cursorLE_total b a)
      (fun a b h₁ h₂ => cursorLE_antisymm a b h₂ h₁)
      _ _ (by decide) (by decide)
  unfold multicursor_insert_char
  rw [if_neg (by decide : ¬(exMulti.cursors = []))]
  dsimp only
  rw [horig]
  trans multicursor_remove_duplicates exMultiAfter
  · congr 1
  · rw [multicursor_remove_duplicates_view exMultiAfter (by decide) (by decide)
      (by decide)]
    rw [if_neg (by decide : ¬(exMultiAfter.cursors.length ≤ 1))]
    rw [show exMultiAfter.cursors.mergeSort cursorLE = exMultiAfter.cursors from
      mergeSort_eq_of_sorted_of_perm _ cursorLE_trans cursorLE_total
        cursorLE_antisymm _ _ (List.Perm.refl _) (by decide)]

/-- **C1, amended.** For every buffer and every duplicate-free cursor set on
existing rows with at least one secondary cursor, inserting one character
other than `'}'` inserts it once at each cursor position (edits applied in
reverse document order, so every row receives the character at the original
columns of its cursors), and afterwards each cursor's new column equals its
original column plus the number of original cursors on the same line whose
column is ≤ that cursor's original column (the final deduplication pass only
sorts the secondaries into document order, so the cursor set is the rebased
image of the original set); in particular, with rows `["foo","bar","baz"]`
and cursors at `(0,0),(1,0),(2,0)`, inserting `'x'` yields rows
`["xfoo","xbar","xbaz"]`, cursors at `(0,1),(1,1),(2,1)`, and one undo
restores the original rows.  (Inserting `'}'` additionally auto-unindents
each affected line once; see the counterexample.) -/
theorem multicursor_insert_rebase (s : EState) (c : Char) (fresh : Bool)
    (hne : s.cursors ≠ []) (hbr : c ≠ '}') (hnd : (allCursors s).Nodup)
    (hlines : ∀ p ∈ allCursors s, p.line < s.rows.length) :
    ((multicursor_insert_char s c fresh).rows.length = s.rows.length ∧
      ∀ i < s.rows.length,
        (multicursor_insert_char s c fresh).rows.getD i [] =
          insertAtCols (s.rows.getD i []) (colsOnLine (allCursors s) i) c) ∧
    ((multicursor_insert_char s c fresh).cy = s.cy ∧
      (multicursor_insert_char s c fresh).cx =
        s.cx + countColLE (allCursors s) ⟨s.cy, s.cx⟩) ∧
    (multicursor_insert_char s c fresh).cursors.Perm
      (s.cursors.map (rebase_column (allCursors s))) ∧
    (multicursor_insert_char exMulti 'x' true).rows =
      [['x', 'f', 'o', 'o'], ['x', 'b', 'a', 'r'], ['x', 'b', 'a', 'z']] ∧
    allCursors (multicursor_insert_char exMulti 'x' true) =
      [⟨0, 1⟩, ⟨1, 1⟩, ⟨2, 1⟩] ∧
    (editor_undo (multicursor_insert_char exMulti 'x' true)).rows =
      exMulti.rows := by
  obtain ⟨hr, hy, hx, hc⟩ := multicursor_insert_char_view s c fresh hne hbr hnd hlines
  have hlineso : ∀ p ∈ multicursor_collect_all_rev s, p.line < s.rows.length :=
    fun p hp => hlines p (((collect_rev_perm s).mem_iff).mp hp)
  refine ⟨⟨?_, ?_⟩, ⟨hy, hx⟩, ?_, ?_, ?_, ?_⟩
  · rw [hr, rowsInsertFold_length]
  · intro i hi
    rw [hr, rowsInsertFold_getD c (multicursor_collect_all_rev s) s.rows i hlineso hi,
      colsOnLine_collect]
  · rw [hc]
    split
    · exact List.Perm.refl _
    · exact List.mergeSort_perm _ _
  · rw [exMulti_eval]
    decide
  · rw [exMulti_eval]
    decide
  · rw [exMulti_eval]
    decide

/-- Witness for `multicursor_insert_rebase`: the worked example's cursor set
satisfies the hypotheses, and the primary cursor ends at column
`0 + (number of cursors on line 0 with column ≤ 0) = 1`. -/
theorem multicursor_insert_rebase_witness :
    exMulti.cursors ≠ [] ∧ ('x' : Char) ≠ '}' ∧ (allCursors exMulti).Nodup ∧
      (∀ p ∈ allCursors exMulti, p.line < exMulti.rows.length) ∧
      (multicursor_insert_char exMulti 'x' true).cx =
        0 + countColLE (allCursors exMulti) ⟨0, 0⟩ :=
  ⟨by decide, by decide, by decide, by decide,
    (multicursor_insert_rebase exMulti 'x' true (by decide) (by decide) (by decide)
      (by decide)).2.1.2⟩

/-- **C1, counterexample.** Inserting `'}'` at every cursor is not just one
insertion per cursor position: with rows `[" a", " b"]` and cursors at
`(0,1)` and `(1,1)`, the claim's per-line insertion predicts `" }a"` for row
0, but the editor also auto-unindents each affected row, producing
`["}a", "}b"]`. -/
theorem multicursor_insert_closing_brace_unindents :
    (multicursor_insert_char
        { mkState [[' ', 'a'], [' ', 'b']] 0 1 with cursors := [⟨1, 1⟩] } '}'
        true).rows = [['}', 'a'], ['}', 'b']] ∧
    insertAtCols [' ', 'a']
        (colsOnLine (allCursors
          { mkState [[' ', 'a'], [' ', 'b']] 0 1 with cursors := [⟨1, 1⟩] }) 0)
        '}' = [' ', '}', 'a'] := by
  constructor
  · unfold multicursor_insert_char
    dsimp only
    rw [show multicursor_collect_all_rev
          { mkState [[' ', 'a'], [' ', 'b']] 0 1 with cursors := [⟨1, 1⟩] } =
        [⟨1, 1⟩, ⟨0, 1⟩] from
      mergeSort_eq_of_sorted_of_perm _
        (fun a b c h₁ h₂ => cursorLE_trans c b a h₂ h₁)
        (fun a b => cursorLE_total b a)
        (fun a b h₁ h₂ => cursorLE_antisymm a b h₂ h₁)
        _ _ (by decide) (by decide)]
    decide
  · have h1 : ((allCursors
        { mkState [[' ', 'a'], [' ', 'b']] 0 1 with
          cursors := [⟨1, 1⟩] }).filter fun p => p.line == 0).map (·.column) =
        [1] := by decide
    unfold colsOnLine
    rw [h1, List.mergeSort_singleton]
    decide

end Miter
